import Mathlib

/-!
Verification of the pseudo-Boolean / cardinality theory plugin
(`src/smt/theory_pb.h`).

The repository provides the header `theory_pb.h`: the data model
(`arg_t`, `ineq`, `card`, `var_info`, trails) and the operation
signatures, with a few member functions defined inline
(`ineq::find_lit`, `theory_pb::internalize_term`).  The bodies of the
remaining operations (normalization, negation, propagation, conflict
reporting, compilation, scope restoration) are not part of the sources;
those operations are modelled here from the specification's own
description, marked `Modelled from the spec:` in their doc comments.

Conventions of the shallow embedding:
* a literal is a Boolean variable index together with a sign flag
  (`sign = true` means the negated occurrence), exactly as smt literals;
* a total model is `Nat → Bool`; a partial assignment is
  `Nat → Option Bool` (`none` = unassigned);
* coefficients and bounds are integers (`Int`), standing for the
  arbitrary-precision rationals of the code, which hold integral values
  in all PB constraints.
-/

namespace TheoryPb

/-- A Boolean literal: variable index plus sign; `sign = true` is the
negated polarity, as in the smt kernel's `literal`. -/
structure Literal where
  var : Nat
  sign : Bool
deriving DecidableEq, Repr

/-- Negation of a literal flips the sign flag. -/
def Literal.neg (l : Literal) : Literal := ⟨l.var, !l.sign⟩

/-- Positive literal of variable `v`. -/
def Literal.pos (v : Nat) : Literal := ⟨v, false⟩

/-- Value of a literal under a total model. -/
def litVal (M : Nat → Bool) (l : Literal) : Bool :=
  if l.sign then !(M l.var) else M l.var

/-- Value of a literal under a partial assignment: `none` when the
variable is unassigned. -/
def plitVal (α : Nat → Option Bool) (l : Literal) : Option Bool :=
  match α l.var with
  | none => none
  | some b => some (if l.sign then !b else b)

/-- `M` extends the partial assignment `α`: every fixed variable keeps
its value. -/
def Extends (M : Nat → Bool) (α : Nat → Option Bool) : Prop :=
  ∀ v b, α v = some b → M v = b

theorem litVal_of_extends {M : Nat → Bool} {α : Nat → Option Bool}
    (h : Extends M α) {l : Literal} {b : Bool} (hl : plitVal α l = some b) :
    litVal M l = b := by
  unfold plitVal at hl
  unfold litVal
  cases hα : α l.var with
  | none => rw [hα] at hl; cases hl
  | some b0 =>
    rw [hα] at hl
    have := h l.var b0 hα
    cases hl
    simp [this]

/-! ## Cardinality constraints (`theory_pb::card`) -/

/-- A cardinality constraint `card`: reified literal `m_lit`, argument
literals `m_args`, bound `m_bound` — "at least `bound` of `args` hold"
(from the header's `class card`). -/
structure Card where
  lit : Literal
  args : List Literal
  bound : Nat
deriving DecidableEq, Repr

/-- A total model satisfies a cardinality constraint when at least
`bound` of its argument literals are true. -/
def cardSat (M : Nat → Bool) (c : Card) : Prop :=
  c.bound ≤ c.args.countP (fun l => litVal M l)

instance (M : Nat → Bool) (c : Card) : Decidable (cardSat M c) := by
  unfold cardSat; infer_instance

/-- A literal can still become true under `α`: it is not assigned false. -/
def canBeTrue (α : Nat → Option Bool) (l : Literal) : Bool :=
  plitVal α l ≠ some false

/-- Number of argument literals of `c` that can still become true. -/
def possibleCount (α : Nat → Option Bool) (c : Card) : Nat :=
  c.args.countP (canBeTrue α)

/-- The argument literals of `c` falsified by `α`. -/
def falsifiedLits (α : Nat → Option Bool) (c : Card) : List Literal :=
  c.args.filter (fun l => plitVal α l = some false)

/-- The argument literals of `c` unassigned by `α`. -/
def unassignedLits (α : Nat → Option Bool) (c : Card) : List Literal :=
  c.args.filter (fun l => plitVal α l = none)

/-- Outcome of examining one cardinality constraint after an assignment
change: nothing, a conflict with its antecedent literals, or a list of
propagations, each a forced literal with its antecedent literals. -/
inductive CardOutcome where
  | noEffect : CardOutcome
  | conflict (antecedents : List Literal) : CardOutcome
  | props (ps : List (Literal × List Literal)) : CardOutcome
deriving DecidableEq, Repr

/-- Modelled from the spec: the body of `card::assign` /
`card::set_conflict` / `theory_pb::add_assign(card&,..)` is not under
`src/`.  Spec §4.3: "On change: if fewer than `bound` literals can still
become true, conflict, with antecedents the falsified watched literals
plus the reified literal; if exactly `bound` remain possible, force all
of them true, each justified by the complementary falsified watch set."
Antecedents are recorded as the currently-true justifying literals: the
negations of the falsified argument literals, plus the reified literal
in the conflict case (spec scenario 1 forces `c` with antecedent
`{¬a,¬b}` for falsified `a`, `b`). -/
def cardAssignStep (α : Nat → Option Bool) (c : Card) : CardOutcome :=
  if possibleCount α c < c.bound then
    .conflict ((falsifiedLits α c).map Literal.neg ++ [c.lit])
  else if possibleCount α c = c.bound then
    .props ((unassignedLits α c).map
      (fun l => (l, (falsifiedLits α c).map Literal.neg)))
  else
    .noEffect

/-! ## General PB inequalities (`theory_pb::arg_t`, `theory_pb::ineq`) -/

/-- `arg_t`: a list of (literal, coefficient) pairs together with the
bound `m_k`, encoding `args[0]*coeffs[0] + ... >= k` (header lines
50–96; invariant comment: `m_k > 0, coeffs[i] > 0`). -/
structure ArgT where
  args : List (Literal × Int)
  k : Int
deriving DecidableEq, Repr

/-- 0/1 integer value of a literal under a total model. -/
def litInt (M : Nat → Bool) (l : Literal) : Int :=
  if litVal M l then 1 else 0

/-- Left-hand side `Σ cᵢ·lᵢ` of a PB constraint under a total model. -/
def lhsSum (M : Nat → Bool) (args : List (Literal × Int)) : Int :=
  (args.map (fun p => p.2 * litInt M p.1)).sum

/-- Satisfaction of the ≥-constraint carried by an `arg_t`. -/
def ineqSat (M : Nat → Bool) (a : ArgT) : Prop :=
  a.k ≤ lhsSum M a.args

instance (M : Nat → Bool) (a : ArgT) : Decidable (ineqSat M a) := by
  unfold ineqSat; infer_instance

/-- Contribution of one (literal, coefficient) pair to the maximal
still-achievable sum: `0` if the literal is already false, else the full
coefficient (the quantity cached in `ineq::m_max_sum`). -/
def maxTerm (α : Nat → Option Bool) (p : Literal × Int) : Int :=
  if plitVal α p.1 = some false then 0 else p.2

/-- Maximal achievable sum `ineq::m_max_sum` of a PB constraint under a
partial assignment. -/
def maxSum (α : Nat → Option Bool) (args : List (Literal × Int)) : Int :=
  (args.map (maxTerm α)).sum

/-- Modelled from the spec: the body of `theory_pb::assign_ineq` /
`assign_watch_ge` is not under `src/`.  Spec §4.2: once the constraint
is "fully determined by unwatched literals" it "must propagate or
conflict immediately"; scenario 2 derives propagation from the maximal
achievable sum.  An unassigned literal is forced true exactly when
falsifying it would drop the maximal achievable sum below the bound. -/
def ineqForced (α : Nat → Option Bool) (a : ArgT) : List Literal :=
  (a.args.filter (fun p =>
    plitVal α p.1 = none ∧ maxSum α a.args - p.2 < a.k)).map (fun p => p.1)

/-- Modelled from the spec: `arg_t::negate` (header line 79) has no body
under `src/`.  Spec §4.1: "`negate` flips polarities and recomputes the
bound for the logical negation of a ≥-constraint
(`¬(Σcᵢlᵢ≥k) ≡ Σcᵢ¬lᵢ ≥ Σcᵢ−k+1`)." -/
def argNegate (a : ArgT) : ArgT :=
  ⟨a.args.map (fun p => (p.1.neg, p.2)),
   (a.args.map (fun p => p.2)).sum - a.k + 1⟩

theorem litVal_neg (M : Nat → Bool) (l : Literal) :
    litVal M l.neg = !(litVal M l) := by
  cases l with
  | mk v s => cases s <;> simp [litVal, Literal.neg]

theorem litInt_neg (M : Nat → Bool) (l : Literal) :
    litInt M l.neg = 1 - litInt M l := by
  unfold litInt
  rw [litVal_neg]
  cases litVal M l <;> simp

theorem lhsSum_neg (M : Nat → Bool) (args : List (Literal × Int)) :
    lhsSum M (args.map (fun p => (p.1.neg, p.2)))
      = (args.map (fun p => p.2)).sum - lhsSum M args := by
  induction args with
  | nil => simp [lhsSum]
  | cons p rest ih =>
    simp only [lhsSum, List.map_cons, List.map_map, List.sum_cons] at *
    rw [ih]
    rw [litInt_neg]
    ring

/-! ## Counting lemmas -/

theorem countP_le_of_mono {A : Type} {p q : A → Bool} :
    ∀ l : List A, (∀ a ∈ l, p a = true → q a = true) →
      l.countP p ≤ l.countP q := by
  intro l
  induction l with
  | nil => intro _; simp
  | cons a rest ih =>
    intro h
    have hrest := ih (fun x hx => h x (List.mem_cons_of_mem a hx))
    by_cases hpa : p a = true
    · have hqa := h a (List.mem_cons_self a rest) hpa
      rw [List.countP_cons_of_pos _ _ hpa, List.countP_cons_of_pos _ _ hqa]
      omega
    · rw [List.countP_cons_of_neg _ _ hpa]
      by_cases hqa : q a = true
      · rw [List.countP_cons_of_pos _ _ hqa]; omega
      · rw [List.countP_cons_of_neg _ _ hqa]; exact hrest

theorem countP_lt_of_mono {A : Type} {p q : A → Bool} :
    ∀ l : List A, (∀ a ∈ l, p a = true → q a = true) →
      ∀ x ∈ l, q x = true → ¬ p x = true →
      l.countP p < l.countP q := by
  intro l
  induction l with
  | nil => intro _ x hx; cases hx
  | cons a rest ih =>
    intro h x hx hqx hpx
    have hmono := fun y hy => h y (List.mem_cons_of_mem a hy)
    rcases List.mem_cons.mp hx with rfl | hx
    · rw [List.countP_cons_of_neg _ _ hpx, List.countP_cons_of_pos _ _ hqx]
      have := countP_le_of_mono rest hmono
      omega
    · have hrest := ih hmono x hx hqx hpx
      by_cases hpa : p a = true
      · rw [List.countP_cons_of_pos _ _ hpa,
            List.countP_cons_of_pos _ _ (h a (List.mem_cons_self a rest) hpa)]
        omega
      · rw [List.countP_cons_of_neg _ _ hpa]
        by_cases hqa : q a = true
        · rw [List.countP_cons_of_pos _ _ hqa]; omega
        · rw [List.countP_cons_of_neg _ _ hqa]; exact hrest

/-- A literal true in a model extending `α` can still become true
under `α`. -/
theorem canBeTrue_of_litVal {M : Nat → Bool} {α : Nat → Option Bool}
    (hM : Extends M α) {l : Literal} (h : litVal M l = true) :
    canBeTrue α l = true := by
  cases hval : plitVal α l with
  | none => simp [canBeTrue, hval]
  | some b =>
    cases b with
    | false =>
      have := litVal_of_extends hM hval
      rw [this] at h
      cases h
    | true => simp [canBeTrue, hval]

theorem card_count_le {M : Nat → Bool} {α : Nat → Option Bool}
    (hM : Extends M α) (c : Card) :
    c.args.countP (fun l => litVal M l) ≤ possibleCount α c :=
  countP_le_of_mono c.args (fun _ _ ha => canBeTrue_of_litVal hM ha)

/-- Soundness of cardinality propagation: when exactly `bound` literals
remain possible, a model extending the assignment and satisfying the
constraint makes every still-unassigned literal true. -/
theorem card_forced_sound {α : Nat → Option Bool} {c : Card}
    (hcount : possibleCount α c = c.bound) {l : Literal}
    (hl : l ∈ unassignedLits α c) {M : Nat → Bool}
    (hM : Extends M α) (hsat : cardSat M c) : litVal M l = true := by
  rw [unassignedLits, List.mem_filter] at hl
  obtain ⟨hmem, hun⟩ := hl
  rw [decide_eq_true_eq] at hun
  by_contra hfalse
  have hcb : canBeTrue α l = true := by
    simp [canBeTrue, hun]
  have hlt : c.args.countP (fun x => litVal M x) < c.args.countP (canBeTrue α) :=
    countP_lt_of_mono c.args (fun _ _ ha => canBeTrue_of_litVal hM ha)
      l hmem hcb hfalse
  have : c.args.countP (fun x => litVal M x) < c.bound := by
    rw [← hcount]; exact hlt
  exact absurd hsat (by unfold cardSat; omega)

/-! Sum lemmas for the general PB propagation path. -/

theorem lhsSum_append (M : Nat → Bool) (xs ys : List (Literal × Int)) :
    lhsSum M (xs ++ ys) = lhsSum M xs + lhsSum M ys := by
  unfold lhsSum
  rw [List.map_append, List.sum_append]

theorem maxSum_append (α : Nat → Option Bool) (xs ys : List (Literal × Int)) :
    maxSum α (xs ++ ys) = maxSum α xs + maxSum α ys := by
  unfold maxSum
  rw [List.map_append, List.sum_append]

theorem lhsSum_le_maxSum {M : Nat → Bool} {α : Nat → Option Bool}
    (hM : Extends M α) :
    ∀ xs : List (Literal × Int), (∀ p ∈ xs, 0 ≤ p.2) →
      lhsSum M xs ≤ maxSum α xs := by
  intro xs
  induction xs with
  | nil => intro _; simp [lhsSum, maxSum]
  | cons p rest ih =>
    intro hpos
    have hrest := ih (fun q hq => hpos q (List.mem_cons_of_mem p hq))
    have hp : 0 ≤ p.2 := hpos p (List.mem_cons_self p rest)
    have hterm : p.2 * litInt M p.1 ≤ maxTerm α p := by
      unfold maxTerm
      by_cases hf : plitVal α p.1 = some false
      · rw [if_pos hf]
        have := litVal_of_extends hM hf
        simp [litInt, this]
      · rw [if_neg hf]
        unfold litInt
        cases litVal M p.1
        · simpa using hp
        · simp
    simp only [lhsSum, maxSum, List.map_cons, List.sum_cons] at *
    omega

/-- Soundness of general PB propagation: a literal is forced when its
falsification would drop the maximal achievable sum below the bound; any
model extending the assignment and satisfying the constraint makes it
true. -/
theorem ineq_forced_sound {α : Nat → Option Bool} {a : ArgT}
    (hpos : ∀ p ∈ a.args, 0 ≤ p.2) {l : Literal}
    (hl : l ∈ ineqForced α a) {M : Nat → Bool}
    (hM : Extends M α) (hsat : ineqSat M a) : litVal M l = true := by
  rw [ineqForced, List.mem_map] at hl
  obtain ⟨p, hp, rfl⟩ := hl
  rw [List.mem_filter] at hp
  obtain ⟨hmem, hcond⟩ := hp
  rw [decide_eq_true_eq] at hcond
  obtain ⟨hun, hlt⟩ := hcond
  by_contra hfalse
  rw [Bool.not_eq_true] at hfalse
  obtain ⟨pre, post, heq⟩ := List.append_of_mem hmem
  unfold ineqSat at hsat
  rw [heq] at hsat hlt
  have hsplitL : lhsSum M (pre ++ p :: post)
      = lhsSum M pre + p.2 * litInt M p.1 + lhsSum M post := by
    rw [lhsSum_append]
    simp only [lhsSum, List.map_cons, List.sum_cons]
    ring
  have hsplitM : maxSum α (pre ++ p :: post)
      = maxSum α pre + maxTerm α p + maxSum α post := by
    rw [maxSum_append]
    simp only [maxSum, List.map_cons, List.sum_cons]
    ring
  have hterm : p.2 * litInt M p.1 = 0 := by
    simp [litInt, hfalse]
  have hmt : maxTerm α p = p.2 := by
    unfold maxTerm
    rw [if_neg (by rw [hun]; intro h; cases h)]
  have hpre : lhsSum M pre ≤ maxSum α pre :=
    lhsSum_le_maxSum hM pre
      (fun q hq => hpos q (by rw [heq]; simp [List.mem_append, hq]))
  have hpost : lhsSum M post ≤ maxSum α post :=
    lhsSum_le_maxSum hM post
      (fun q hq => hpos q
        (by rw [heq]; simp [List.mem_append, List.mem_cons, hq]))
  rw [hsplitL, hterm] at hsat
  rw [hsplitM, hmt] at hlt
  omega

/-! ## Concrete instances used by the scenario claims -/

/-- Partial assignment fixing only variable 0 (`a`) to false. -/
def alphaA : Nat → Option Bool := fun v => if v = 0 then some false else none

/-- Partial assignment fixing variables 0 and 1 (`a`, `b`) to false. -/
def alphaAB : Nat → Option Bool := fun v => if v < 2 then some false else none

/-- The cardinality constraint "at least 2 of {a,b,c}" with variables
`a = 0`, `b = 1`, `c = 2` and reified literal on variable 3. -/
def card0 : Card :=
  ⟨Literal.pos 3, [Literal.pos 0, Literal.pos 1, Literal.pos 2], 2⟩

/-- Total model with `a` false and every other variable true. -/
def modelBC : Nat → Bool := fun v => decide (v ≠ 0)

/-- Total model with `a`, `b` false and every other variable true. -/
def modelC : Nat → Bool := fun v => decide (2 ≤ v)

theorem modelBC_extends : Extends modelBC alphaA := by
  intro v b h
  unfold alphaA at h
  by_cases h0 : v = 0
  · rw [if_pos h0] at h
    cases h
    simp [modelBC, h0]
  · rw [if_neg h0] at h
    cases h

/-- The PB constraint `2a + 3b + c ≥ 4` of spec scenario 2. -/
def ineqA : ArgT :=
  ⟨[(Literal.pos 0, 2), (Literal.pos 1, 3), (Literal.pos 2, 1)], 4⟩

/-! ## Claim theorems C1–C4 -/

/-- Claim C1: for every PB or cardinality constraint and every literal
the plugin forces under a partial assignment, any total model that
satisfies the constraint and all previously-fixed literals also
satisfies the forced literal. -/
theorem claim1_propagation_sound :
    (∀ (α : Nat → Option Bool) (c : Card)
        (ps : List (Literal × List Literal)),
        cardAssignStep α c = CardOutcome.props ps →
        ∀ l ants, (l, ants) ∈ ps →
        ∀ M : Nat → Bool, Extends M α → cardSat M c → litVal M l = true)
    ∧ (∀ (α : Nat → Option Bool) (a : ArgT), (∀ p ∈ a.args, 0 ≤ p.2) →
        ∀ l ∈ ineqForced α a, ∀ M : Nat → Bool,
          Extends M α → ineqSat M a → litVal M l = true) := by
  constructor
  · intro α c ps hstep l ants hmem M hM hsat
    unfold cardAssignStep at hstep
    by_cases h1 : possibleCount α c < c.bound
    · rw [if_pos h1] at hstep
      cases hstep
    · rw [if_neg h1] at hstep
      by_cases h2 : possibleCount α c = c.bound
      · rw [if_pos h2] at hstep
        injection hstep with hps
        subst hps
        rw [List.mem_map] at hmem
        obtain ⟨l0, hl0, heq⟩ := hmem
        have : l0 = l := congrArg Prod.fst heq
        subst this
        exact card_forced_sound h2 hl0 hM hsat
      · rw [if_neg h2] at hstep
        cases hstep
  · intro α a hpos l hl M hM hsat
    exact ineq_forced_sound hpos hl hM hsat

/-- Witness for C1: on "at least 2 of {a,b,c}" with `a = false`, the
step propagates `b` (and `c`) with antecedent `¬a`, and the model
`a=false, b=true, c=true`, which extends the assignment and satisfies
the constraint, indeed makes the forced literal `b` true. -/
theorem claim1_witness :
    cardAssignStep alphaA card0
      = CardOutcome.props
          [(Literal.pos 1, [Literal.mk 0 true]),
           (Literal.pos 2, [Literal.mk 0 true])]
    ∧ litVal modelBC (Literal.pos 1) = true :=
  ⟨by decide,
   claim1_propagation_sound.1 alphaA card0
     [(Literal.pos 1, [Literal.mk 0 true]),
      (Literal.pos 2, [Literal.mk 0 true])]
     (by decide) (Literal.pos 1) [Literal.mk 0 true] (by decide)
     modelBC modelBC_extends (by decide)⟩

/-- Claim C2: whenever the plugin reports a conflict with an antecedent
literal set, no total assignment that extends (makes true) the reported
antecedent set satisfies the constraint that raised the conflict. -/
theorem claim2_conflict_sound :
    ∀ (α : Nat → Option Bool) (c : Card) (A : List Literal),
      cardAssignStep α c = CardOutcome.conflict A →
      ∀ M : Nat → Bool, (∀ l ∈ A, litVal M l = true) → ¬ cardSat M c := by
  intro α c A hstep M hA hsat
  unfold cardAssignStep at hstep
  by_cases h1 : possibleCount α c < c.bound
  case neg =>
    rw [if_neg h1] at hstep
    by_cases h2 : possibleCount α c = c.bound
    · rw [if_pos h2] at hstep
      cases hstep
    · rw [if_neg h2] at hstep
      cases hstep
  case pos =>
    rw [if_pos h1] at hstep
    cases hstep
    have hle : c.args.countP (fun x => litVal M x)
        ≤ c.args.countP (canBeTrue α) := by
      apply countP_le_of_mono
      intro x hx hval
      unfold canBeTrue
      by_contra hc
      rw [Bool.not_eq_true, decide_eq_false_iff_not, Decidable.not_not] at hc
      have hxf : x ∈ falsifiedLits α c := by
        rw [falsifiedLits, List.mem_filter]
        exact ⟨hx, by rw [decide_eq_true_eq]; exact hc⟩
      have hneg : x.neg ∈ (falsifiedLits α c).map Literal.neg ++ [c.lit] := by
        rw [List.mem_append]
        exact Or.inl (List.mem_map_of_mem Literal.neg hxf)
      have := hA x.neg hneg
      rw [litVal_neg, hval] at this
      cases this
    unfold cardSat at hsat
    unfold possibleCount at h1
    omega

/-- Witness for C2: with `a = false, b = false` the constraint
"at least 2 of {a,b,c}" reports a conflict with antecedents
`{¬a, ¬b}` plus the reified literal; the model making all those
antecedents true violates the constraint. -/
theorem claim2_witness : ¬ cardSat modelC card0 :=
  claim2_conflict_sound alphaAB card0
    [Literal.mk 0 true, Literal.mk 1 true, Literal.pos 3]
    (by decide) modelC (by decide)

/-- Counterexample to C3's scenario: with `a = false, b = false`, only
one literal of "at least 2 of {a,b,c}" can still become true, which is
fewer than the bound, so the step reports a conflict — it does not
propagate `c` with antecedent `{¬a, ¬b}` as the claim states. -/
theorem claim3_counterexample :
    cardAssignStep alphaAB card0
      = CardOutcome.conflict
          [Literal.mk 0 true, Literal.mk 1 true, Literal.pos 3]
    ∧ cardAssignStep alphaAB card0
      ≠ CardOutcome.props
          [(Literal.pos 2, [Literal.mk 0 true, Literal.mk 1 true])] := by
  decide

/-- Claim C3 (amended): on an assignment change, if fewer than `bound`
literals can still become true the step reports a conflict whose
antecedents are the negations of the falsified literals plus the
reified literal; if exactly `bound` remain possible, every unassigned
literal is forced true, justified by the negated falsified literals.
In particular, for "at least 2 of {a,b,c}", assigning `a = false` alone
forces both `b` and `c` true with antecedent `{¬a}`, while assigning
`a = false, b = false` yields a conflict with antecedents `{¬a, ¬b}`
plus the reified literal. -/
theorem claim3_card_rule :
    (∀ (α : Nat → Option Bool) (c : Card), possibleCount α c < c.bound →
        cardAssignStep α c
          = CardOutcome.conflict
              ((falsifiedLits α c).map Literal.neg ++ [c.lit]))
    ∧ (∀ (α : Nat → Option Bool) (c : Card), possibleCount α c = c.bound →
        cardAssignStep α c
          = CardOutcome.props ((unassignedLits α c).map
              (fun l => (l, (falsifiedLits α c).map Literal.neg))))
    ∧ cardAssignStep alphaA card0
        = CardOutcome.props
            [(Literal.pos 1, [Literal.mk 0 true]),
             (Literal.pos 2, [Literal.mk 0 true])]
    ∧ cardAssignStep alphaAB card0
        = CardOutcome.conflict
            [Literal.mk 0 true, Literal.mk 1 true, Literal.pos 3] := by
  refine ⟨?_, ?_, by decide, by decide⟩
  · intro α c h
    unfold cardAssignStep
    rw [if_pos h]
  · intro α c h
    unfold cardAssignStep
    rw [if_neg (by omega), if_pos h]

/-- Witness for C3 (amended): the conflict branch of the rule applied
to "at least 2 of {a,b,c}" under `a = false, b = false`. -/
theorem claim3_witness :
    possibleCount alphaAB card0 < card0.bound
    ∧ cardAssignStep alphaAB card0
        = CardOutcome.conflict
            ((falsifiedLits alphaAB card0).map Literal.neg ++ [card0.lit]) :=
  ⟨by decide, claim3_card_rule.1 alphaAB card0 (by decide)⟩

/-- Claim C4: for `2a + 3b + c ≥ 4` with `a` assigned false, the maximal
achievable sum is `3 + 1 = 4`, exactly meeting the bound, and both `b`
and `c` are forced true. -/
theorem claim4_exact_bound_forcing :
    maxSum alphaA ineqA.args = 4
    ∧ ineqForced alphaA ineqA = [Literal.pos 1, Literal.pos 2] := by
  decide

/-! ## Claim C6: negation of a ≥-constraint -/

/-- Claim C6: `negate` flips every literal's polarity and recomputes the
bound so that the result represents `Σcᵢ¬lᵢ ≥ Σcᵢ − k + 1`, which is
logically equivalent to `¬(Σcᵢlᵢ ≥ k)` over 0/1 literals. -/
theorem claim6_negate_correct :
    ∀ (a : ArgT) (M : Nat → Bool),
      (argNegate a).args = a.args.map (fun p => (p.1.neg, p.2))
      ∧ (argNegate a).k = (a.args.map (fun p => p.2)).sum - a.k + 1
      ∧ (ineqSat M (argNegate a) ↔ ¬ ineqSat M a) := by
  intro a M
  refine ⟨rfl, rfl, ?_⟩
  unfold ineqSat argNegate
  simp only
  rw [lhsSum_neg]
  omega

/-! ## Claim C10: `ineq::find_lit` (embedded from the source) -/

/-- `ineq::find_lit` (header lines 160–166): scans forward from `begin`
for the first argument literal whose variable is `v`.  The C++ loop
reads `lit(begin)` unconditionally and guards the scan only with
`SASSERT(begin < end)`; reading past the end of the argument list is
modelled as `none`. -/
def find_lit (args : List Literal) (v : Nat) (b : Nat) : Option Nat :=
  if h : b < args.length then
    if (args.get ⟨b, h⟩).var = v then some b else find_lit args v (b + 1)
  else none
termination_by args.length - b

theorem find_lit_aux :
    ∀ (k : Nat) (args : List Literal) (v b : Nat),
      (∃ l, args[b + k]? = some l ∧ l.var = v) →
      ∃ j lj, find_lit args v b = some j ∧ b ≤ j ∧ j ≤ b + k ∧
        args[j]? = some lj ∧ lj.var = v ∧
        ∀ m lm, b ≤ m → m < j → args[m]? = some lm → lm.var ≠ v := by
  intro k
  induction k with
  | zero =>
    intro args v b hex
    obtain ⟨l, hl, hv⟩ := hex
    rw [Nat.add_zero] at hl
    obtain ⟨hb, hget⟩ := List.getElem?_eq_some.mp hl
    refine ⟨b, l, ?_, Nat.le_refl b, by omega, by simpa using hl,
      hv, fun m lm h1 h2 _ => absurd (Nat.lt_of_le_of_lt h1 h2) (Nat.lt_irrefl b)⟩
    unfold find_lit
    rw [dif_pos hb]
    rw [if_pos (by rw [List.get_eq_getElem, hget]; exact hv)]
  | succ k ih =>
    intro args v b hex
    obtain ⟨l, hl, hv⟩ := hex
    have hbk : b + (k + 1) < args.length :=
      (List.getElem?_eq_some.mp hl).1
    have hb : b < args.length := by omega
    by_cases hhit : (args.get ⟨b, hb⟩).var = v
    · refine ⟨b, args.get ⟨b, hb⟩, ?_, Nat.le_refl b, by omega,
        by rw [List.getElem?_eq_getElem hb]; rfl, hhit,
        fun m lm h1 h2 _ => absurd (Nat.lt_of_le_of_lt h1 h2) (Nat.lt_irrefl b)⟩
      unfold find_lit
      rw [dif_pos hb, if_pos hhit]
    · have hstep : find_lit args v b = find_lit args v (b + 1) := by
        conv_lhs => unfold find_lit
        rw [dif_pos hb, if_neg hhit]
      have hex2 : ∃ l0, args[(b + 1) + k]? = some l0 ∧ l0.var = v := by
        refine ⟨l, ?_, hv⟩
        rw [show b + 1 + k = b + (k + 1) by omega]
        exact hl
      obtain ⟨j, lj, hfind, hj1, hj2, hjget, hjv, hmin⟩ := ih args v (b + 1) hex2
      refine ⟨j, lj, by rw [hstep]; exact hfind, by omega, by omega, hjget, hjv, ?_⟩
      intro m lm h1 h2 hm
      by_cases hmb : m = b
      · subst hmb
        rw [List.getElem?_eq_getElem hb] at hm
        cases hm
        exact hhit
      · exact hmin m lm (by omega) h2 hm

/-- Claim C10: for every ineq argument list, variable `v` and indices
`begin ≤ end ≤ size` such that `v` occurs at some index in
`[begin, end)`, `find_lit` terminates and returns the least index
`j ≥ begin` whose literal has variable `v`; in particular `j < end`, so
the out-of-range scan guarded only by the debug assertion is never
reached. -/
theorem claim10_find_lit_correct :
    ∀ (args : List Literal) (v b e i : Nat) (li : Literal),
      b ≤ i → i < e → e ≤ args.length →
      args[i]? = some li → li.var = v →
      ∃ j lj, find_lit args v b = some j ∧ b ≤ j ∧ j < e ∧
        args[j]? = some lj ∧ lj.var = v ∧
        ∀ m lm, b ≤ m → m < j → args[m]? = some lm → lm.var ≠ v := by
  intro args v b e i li hbi hie hel hget hvar
  obtain ⟨j, lj, hfind, hj1, hj2, hjget, hjv, hmin⟩ :=
    find_lit_aux (i - b) args v b
      ⟨li, by rw [show b + (i - b) = i by omega]; exact hget, hvar⟩
  exact ⟨j, lj, hfind, hj1, by omega, hjget, hjv, hmin⟩

/-- Literal list used by the `find_lit` witness. -/
def demoArgs : List Literal :=
  [Literal.mk 5 false, Literal.mk 7 false, Literal.mk 7 true]

/-- Witness for C10: in `demoArgs` the variable 7 first occurs at
index 1, and `find_lit` starting at 0 with end 3 finds exactly that
least index. -/
theorem claim10_witness :
    ∃ j lj, find_lit demoArgs 7 0 = some j ∧ 0 ≤ j ∧ j < 3 ∧
      demoArgs[j]? = some lj ∧ lj.var = 7 ∧
      ∀ m lm, 0 ≤ m → m < j → demoArgs[m]? = some lm → lm.var ≠ 7 :=
  claim10_find_lit_correct demoArgs 7 0 3 1 (Literal.mk 7 false)
    (by decide) (by decide) (by decide) (by decide) (by decide)

/-! ## Scope and lifecycle state (claims C8, C9) -/

/-- Plugin state relevant to scope handling: fresh-id counter (arena
index for constraints), the per-depth creation trails and their limit
stacks (`m_ineqs_trail` / `m_ineqs_lim`, `m_card_trail` / `m_card_lim`,
header lines 285–286 and 322–323), variable-indexed watch lists for
both families, and the simplex tableau rows. -/
structure PbState where
  next_id : Nat
  ineqs_trail : List Nat
  ineqs_lim : List Nat
  card_trail : List Nat
  card_lim : List Nat
  iwatch : Nat → List Nat
  cwatch : Nat → List Nat
  rows : List Nat

/-- Watch lists and tableau rows reference only constraints that have
actually been created (ids below the fresh-id counter). -/
def StateWF (s : PbState) : Prop :=
  (∀ v id, id ∈ s.iwatch v → id < s.next_id)
  ∧ (∀ v id, id ∈ s.cwatch v → id < s.next_id)
  ∧ (∀ id ∈ s.rows, id < s.next_id)

/-- One constraint assertion: a cardinality or a general PB constraint,
given by the variables whose watch lists it is entered into. -/
inductive AssertOp where
  | acard (watchVars : List Nat)
  | aineq (watchVars : List Nat)

/-- Modelled from the spec: the bodies of `internalize_card` /
`internalize_atom` are not under `src/`.  Creating a constraint draws a
fresh id, pushes it on the family's creation trail, and enters it into
the watch lists of its watch variables; a general PB constraint also
gains a simplex tableau row (spec sections 2, 3 "Trails" and 4.7). -/
def applyOp (s : PbState) : AssertOp → PbState
  | .acard vs =>
    { s with
      next_id := s.next_id + 1
      card_trail := s.next_id :: s.card_trail
      cwatch := fun v =>
        if v ∈ vs then s.next_id :: s.cwatch v else s.cwatch v }
  | .aineq vs =>
    { s with
      next_id := s.next_id + 1
      ineqs_trail := s.next_id :: s.ineqs_trail
      rows := s.next_id :: s.rows
      iwatch := fun v =>
        if v ∈ vs then s.next_id :: s.iwatch v else s.iwatch v }

/-- A sequence of constraint assertions at the current depth. -/
def applyOps (ops : List AssertOp) (s : PbState) : PbState :=
  ops.foldl applyOp s

/-- Modelled from the spec: `push_scope_eh` body not under `src/`.
Pushing a scope records the current creation-trail sizes on the limit
stacks (spec section 3, "Trails"). -/
def push_scope (s : PbState) : PbState :=
  { s with
    ineqs_lim := s.ineqs_trail.length :: s.ineqs_lim
    card_lim := s.card_trail.length :: s.card_lim }

/-- Modelled from the spec: `pop_scope_eh` body not under `src/`.
Popping one scope discards every constraint created since the matching
push: it truncates both creation trails back to the recorded limits and
removes each discarded constraint from every watch list and from the
tableau rows (spec sections 4.7 and 8, scope restoration). -/
def pop_scope (s : PbState) : PbState :=
  match s.ineqs_lim, s.card_lim with
  | il :: ilrest, cl :: clrest =>
    let idrop := s.ineqs_trail.take (s.ineqs_trail.length - il)
    let cdrop := s.card_trail.take (s.card_trail.length - cl)
    { next_id := s.next_id
      ineqs_trail := s.ineqs_trail.drop (s.ineqs_trail.length - il)
      ineqs_lim := ilrest
      card_trail := s.card_trail.drop (s.card_trail.length - cl)
      card_lim := clrest
      iwatch := fun v => (s.iwatch v).filter (fun id => decide (id ∉ idrop))
      cwatch := fun v => (s.cwatch v).filter (fun id => decide (id ∉ cdrop))
      rows := s.rows.filter (fun id => decide (id ∉ idrop)) }
  | _, _ => s

/-- Relation between the pre-push state and any state reached by
asserting constraints after the push: trails grow by fresh ids only,
the limit stacks record the pre-push trail sizes, and every watch-list
or row addition is one of the newly-trailed ids. -/
def ScopeInv (s s2 : PbState) : Prop :=
  s.next_id ≤ s2.next_id
  ∧ ∃ newi newc : List Nat,
      s2.ineqs_trail = newi ++ s.ineqs_trail
      ∧ (∀ id ∈ newi, s.next_id ≤ id)
      ∧ s2.card_trail = newc ++ s.card_trail
      ∧ (∀ id ∈ newc, s.next_id ≤ id)
      ∧ s2.ineqs_lim = s.ineqs_trail.length :: s.ineqs_lim
      ∧ s2.card_lim = s.card_trail.length :: s.card_lim
      ∧ (∀ v, ∃ w, s2.iwatch v = w ++ s.iwatch v ∧ ∀ id ∈ w, id ∈ newi)
      ∧ (∀ v, ∃ w, s2.cwatch v = w ++ s.cwatch v ∧ ∀ id ∈ w, id ∈ newc)
      ∧ (∃ r, s2.rows = r ++ s.rows ∧ ∀ id ∈ r, id ∈ newi)

theorem scopeInv_push (s : PbState) : ScopeInv s (push_scope s) := by
  refine ⟨Nat.le_refl _, [], [], by simp [push_scope], by simp,
    by simp [push_scope], by simp, by simp [push_scope], by simp [push_scope],
    fun v => ⟨[], by simp [push_scope], by simp⟩,
    fun v => ⟨[], by simp [push_scope], by simp⟩,
    ⟨[], by simp [push_scope], by simp⟩⟩

theorem scopeInv_apply (s s2 : PbState) (op : AssertOp)
    (h : ScopeInv s s2) : ScopeInv s (applyOp s2 op) := by
  obtain ⟨hnext, newi, newc, hti, hfi, htc, hfc, hli, hlc, hiw, hcw, hr⟩ := h
  cases op with
  | acard vs =>
    refine ⟨by simp [applyOp]; omega, newi, s2.next_id :: newc, ?_, hfi, ?_, ?_,
      hli, hlc, ?_, ?_, ?_⟩
    · simpa [applyOp] using hti
    · simp only [applyOp]
      rw [htc]
      rfl
    · intro id hid
      rcases List.mem_cons.mp hid with rfl | hid
      · exact hnext
      · exact hfc id hid
    · intro v
      obtain ⟨w, hw, hws⟩ := hiw v
      exact ⟨w, by simpa [applyOp] using hw, hws⟩
    · intro v
      obtain ⟨w, hw, hws⟩ := hcw v
      by_cases hv : v ∈ vs
      · refine ⟨s2.next_id :: w, ?_, ?_⟩
        · simp only [applyOp, if_pos hv]
          rw [hw]
          rfl
        · intro id hid
          rcases List.mem_cons.mp hid with rfl | hid
          · exact List.mem_cons_self _ _
          · exact List.mem_cons_of_mem _ (hws id hid)
      · refine ⟨w, ?_, fun id hid => List.mem_cons_of_mem _ (hws id hid)⟩
        simp only [applyOp, if_neg hv]
        exact hw
    · obtain ⟨r, hrw, hrs⟩ := hr
      exact ⟨r, by simpa [applyOp] using hrw, hrs⟩
  | aineq vs =>
    refine ⟨by simp [applyOp]; omega, s2.next_id :: newi, newc, ?_, ?_, ?_,
      hfc, hli, hlc, ?_, ?_, ?_⟩
    · simp only [applyOp]
      rw [hti]
      rfl
    · intro id hid
      rcases List.mem_cons.mp hid with rfl | hid
      · exact hnext
      · exact hfi id hid
    · simpa [applyOp] using htc
    · intro v
      obtain ⟨w, hw, hws⟩ := hiw v
      by_cases hv : v ∈ vs
      · refine ⟨s2.next_id :: w, ?_, ?_⟩
        · simp only [applyOp, if_pos hv]
          rw [hw]
          rfl
        · intro id hid
          rcases List.mem_cons.mp hid with rfl | hid
          · exact List.mem_cons_self _ _
          · exact List.mem_cons_of_mem _ (hws id hid)
      · refine ⟨w, ?_, fun id hid => List.mem_cons_of_mem _ (hws id hid)⟩
        simp only [applyOp, if_neg hv]
        exact hw
    · intro v
      obtain ⟨w, hw, hws⟩ := hcw v
      exact ⟨w, by simpa [applyOp] using hw, hws⟩
    · obtain ⟨r, hrw, hrs⟩ := hr
      refine ⟨s2.next_id :: r, ?_, ?_⟩
      · simp only [applyOp]
        rw [hrw]
        rfl
      · intro id hid
        rcases List.mem_cons.mp hid with rfl | hid
        · exact List.mem_cons_self _ _
        · exact List.mem_cons_of_mem _ (hrs id hid)

theorem scopeInv_ops (ops : List AssertOp) :
    ∀ (s s2 : PbState), ScopeInv s s2 → ScopeInv s (applyOps ops s2) := by
  induction ops with
  | nil => intro s s2 h; exact h
  | cons op rest ih =>
    intro s s2 h
    exact ih s (applyOp s2 op) (scopeInv_apply s s2 op h)

theorem pop_restores (s s2 : PbState) (hwf : StateWF s)
    (hinv : ScopeInv s s2) :
    (pop_scope s2).ineqs_trail = s.ineqs_trail
    ∧ (pop_scope s2).ineqs_lim = s.ineqs_lim
    ∧ (pop_scope s2).card_trail = s.card_trail
    ∧ (pop_scope s2).card_lim = s.card_lim
    ∧ (∀ v, (pop_scope s2).iwatch v = s.iwatch v)
    ∧ (∀ v, (pop_scope s2).cwatch v = s.cwatch v)
    ∧ (pop_scope s2).rows = s.rows := by
  obtain ⟨hwi, hwc, hwr⟩ := hwf
  obtain ⟨hnext, newi, newc, hti, hfi, htc, hfc, hli, hlc, hiw, hcw, hr⟩ := hinv
  have hpop : pop_scope s2 =
      { next_id := s2.next_id
        ineqs_trail :=
          s2.ineqs_trail.drop (s2.ineqs_trail.length - s.ineqs_trail.length)
        ineqs_lim := s.ineqs_lim
        card_trail :=
          s2.card_trail.drop (s2.card_trail.length - s.card_trail.length)
        card_lim := s.card_lim
        iwatch := fun v => (s2.iwatch v).filter (fun id =>
          decide (id ∉ s2.ineqs_trail.take
            (s2.ineqs_trail.length - s.ineqs_trail.length)))
        cwatch := fun v => (s2.cwatch v).filter (fun id =>
          decide (id ∉ s2.card_trail.take
            (s2.card_trail.length - s.card_trail.length)))
        rows := s2.rows.filter (fun id =>
          decide (id ∉ s2.ineqs_trail.take
            (s2.ineqs_trail.length - s.ineqs_trail.length))) } := by
    unfold pop_scope
    rw [hli, hlc]
  have hleni : s2.ineqs_trail.length - s.ineqs_trail.length = newi.length := by
    rw [hti, List.length_append]
    omega
  have hlenc : s2.card_trail.length - s.card_trail.length = newc.length := by
    rw [htc, List.length_append]
    omega
  have htakei : s2.ineqs_trail.take
      (s2.ineqs_trail.length - s.ineqs_trail.length) = newi := by
    rw [hleni, hti]
    exact List.take_left newi s.ineqs_trail
  have htakec : s2.card_trail.take
      (s2.card_trail.length - s.card_trail.length) = newc := by
    rw [hlenc, htc]
    exact List.take_left newc s.card_trail
  have hnotini : ∀ id, id < s.next_id → id ∉ newi := by
    intro id hlt hm
    have := hfi id hm
    omega
  have hnotinc : ∀ id, id < s.next_id → id ∉ newc := by
    intro id hlt hm
    have := hfc id hm
    omega
  rw [hpop]
  refine ⟨?_, rfl, ?_, rfl, ?_, ?_, ?_⟩
  · rw [hleni, hti]
    exact List.drop_left newi s.ineqs_trail
  · rw [hlenc, htc]
    exact List.drop_left newc s.card_trail
  · intro v
    obtain ⟨w, hw, hws⟩ := hiw v
    simp only [htakei, hw, List.filter_append]
    rw [List.filter_eq_nil_iff.mpr, List.filter_eq_self.mpr, List.nil_append]
    · intro id hid
      exact decide_eq_true (hnotini id (hwi v id hid))
    · intro id hid
      simp only [decide_eq_true_eq]
      exact fun h => h (hws id hid)
  · intro v
    obtain ⟨w, hw, hws⟩ := hcw v
    simp only [htakec, hw, List.filter_append]
    rw [List.filter_eq_nil_iff.mpr, List.filter_eq_self.mpr, List.nil_append]
    · intro id hid
      exact decide_eq_true (hnotinc id (hwc v id hid))
    · intro id hid
      simp only [decide_eq_true_eq]
      exact fun h => h (hws id hid)
  · obtain ⟨r, hrw, hrs⟩ := hr
    simp only [htakei, hrw, List.filter_append]
    rw [List.filter_eq_nil_iff.mpr, List.filter_eq_self.mpr, List.nil_append]
    · intro id hid
      exact decide_eq_true (hnotini id (hwr id hid))
    · intro id hid
      simp only [decide_eq_true_eq]
      exact fun h => h (hrs id hid)

/-- Claim C8: asserting any sequence of constraints after a scope push
and then popping the scope restores the creation trails, the limit
stacks, every watch list and the simplex tableau rows exactly to their
pre-assertion state, and every constraint created inside the popped
scope (id at or above the pre-push counter) is absent from every watch
structure and from the rows. -/
theorem claim8_scope_restoration :
    ∀ (s : PbState) (ops : List AssertOp), StateWF s →
      (pop_scope (applyOps ops (push_scope s))).ineqs_trail = s.ineqs_trail
      ∧ (pop_scope (applyOps ops (push_scope s))).ineqs_lim = s.ineqs_lim
      ∧ (pop_scope (applyOps ops (push_scope s))).card_trail = s.card_trail
      ∧ (pop_scope (applyOps ops (push_scope s))).card_lim = s.card_lim
      ∧ (∀ v, (pop_scope (applyOps ops (push_scope s))).iwatch v = s.iwatch v)
      ∧ (∀ v, (pop_scope (applyOps ops (push_scope s))).cwatch v = s.cwatch v)
      ∧ (pop_scope (applyOps ops (push_scope s))).rows = s.rows
      ∧ ∀ id, s.next_id ≤ id →
          (∀ v, id ∉ (pop_scope (applyOps ops (push_scope s))).iwatch v)
          ∧ (∀ v, id ∉ (pop_scope (applyOps ops (push_scope s))).cwatch v)
          ∧ id ∉ (pop_scope (applyOps ops (push_scope s))).rows := by
  intro s ops hwf
  have hinv : ScopeInv s (applyOps ops (push_scope s)) :=
    scopeInv_ops ops s (push_scope s) (scopeInv_push s)
  obtain ⟨h1, h2, h3, h4, h5, h6, h7⟩ := pop_restores s _ hwf hinv
  refine ⟨h1, h2, h3, h4, h5, h6, h7, ?_⟩
  intro id hid
  obtain ⟨hwi, hwc, hwr⟩ := hwf
  refine ⟨?_, ?_, ?_⟩
  · intro v hm
    rw [h5 v] at hm
    have := hwi v id hm
    omega
  · intro v hm
    rw [h6 v] at hm
    have := hwc v id hm
    omega
  · intro hm
    rw [h7] at hm
    have := hwr id hm
    omega

/-- The empty plugin state. -/
def s0 : PbState := ⟨0, [], [], [], [], fun _ => [], fun _ => [], []⟩

/-- A demonstration assertion sequence: one general PB constraint
watched on variables 0 and 1, then one cardinality constraint watched
on variables 1 and 2. -/
def demoOps : List AssertOp := [AssertOp.aineq [0, 1], AssertOp.acard [1, 2]]

theorem s0_wf : StateWF s0 :=
  ⟨fun _ id h => absurd h (List.not_mem_nil id),
   fun _ id h => absurd h (List.not_mem_nil id),
   fun id h => absurd h (List.not_mem_nil id)⟩

/-- Witness for C8: push, assert two constraints, pop — the trails,
watch lists and tableau rows of the empty state are restored exactly. -/
theorem claim8_witness :
    StateWF s0
    ∧ (pop_scope (applyOps demoOps (push_scope s0))).ineqs_trail = s0.ineqs_trail
    ∧ (∀ v, (pop_scope (applyOps demoOps (push_scope s0))).iwatch v = s0.iwatch v)
    ∧ (pop_scope (applyOps demoOps (push_scope s0))).rows = s0.rows :=
  ⟨s0_wf,
   (claim8_scope_restoration s0 demoOps s0_wf).1,
   (claim8_scope_restoration s0 demoOps s0_wf).2.2.2.2.1,
   (claim8_scope_restoration s0 demoOps s0_wf).2.2.2.2.2.2.1⟩

/-! ## Claim C9: `internalize_term` (embedded from the source) -/

/-- Result of a term-internalization call: the returned Boolean, the
plugin state after the call, and whether the verification-mode
unreachability assertion fired. -/
structure TermResult where
  ok : Bool
  state : PbState
  assertionTripped : Bool

/-- `theory_pb::internalize_term` (header line 412), embedded from the
source: `{ UNREACHABLE(); return false; }` — the unreachability
assertion trips and `false` is returned with no state change.  The term
argument is opaque to this function and is modelled as an id. -/
def internalize_term (s : PbState) (_term : Nat) : TermResult :=
  ⟨false, s, true⟩

/-- Claim C9: every call to `internalize_term` is a contract failure —
it returns false, creates no constraint state, and trips the
unreachability assertion in verification mode. -/
theorem claim9_internalize_term :
    ∀ (s : PbState) (t : Nat),
      (internalize_term s t).ok = false
      ∧ (internalize_term s t).state = s
      ∧ (internalize_term s t).assertionTripped = true :=
  fun _ _ => ⟨rfl, rfl, rfl⟩

/-! ## Claim C5: normalization of `arg_t` -/

/-- The three-valued result type of `arg_t::normalize` (`lbool`). -/
inductive Lbool where
  | lfalse : Lbool
  | lundef : Lbool
  | ltrue : Lbool
deriving DecidableEq, Repr

/-- Merge duplicate occurrences of the same literal by summing their
coefficients, keeping first-occurrence order (spec §4.1: "merges
duplicate variables by summing coefficients"). -/
def mergeDups : List (Literal × Int) → List (Literal × Int)
  | [] => []
  | (l, c) :: rest =>
    (l, c + ((rest.filter (fun q => decide (q.1 = l))).map (fun q => q.2)).sum)
      :: mergeDups (rest.filter (fun q => !decide (q.1 = l)))
termination_by xs => xs.length
decreasing_by
  simp only [List.length_cons]
  exact Nat.lt_succ_of_le (List.length_filter_le _ rest)

/-- The amount a complementary pair lets us reduce by: the minimum of
the two coefficients when the complementary literal occurs, else 0. -/
def compMin (xs : List (Literal × Int)) (p : Literal × Int) : Int :=
  match xs.find? (fun q => decide (q.1 = p.1.neg)) with
  | none => 0
  | some q => min p.2 q.2

/-- Reduce one pair's coefficient by the complementary-pair minimum. -/
def compReduce (xs : List (Literal × Int)) (p : Literal × Int) :
    Literal × Int :=
  (p.1, p.2 - compMin xs p)

/-- Remove complementary literal pairs, reducing the bound (spec §4.1:
"removes complementary literal pairs (reduces `k`)").  Since
`c₁·l + c₂·¬l = min c₁ c₂ + (c₁ − m)·l + (c₂ − m)·¬l` with
`m = min c₁ c₂`, subtracting `m` from both coefficients lowers the
left-hand side by exactly `m`, so `k` drops by `m` per complementary
variable pair; pairs whose coefficient reaches zero are dropped. -/
def elimComp (xs : List (Literal × Int)) (k : Int) :
    List (Literal × Int) × Int :=
  ((xs.map (compReduce xs)).filter (fun p => decide (0 < p.2)),
   k - ((xs.filter (fun p => !p.1.sign)).map (compMin xs)).sum)

/-- Greatest common divisor of a coefficient list. -/
def listGcd (cs : List Int) : Nat :=
  cs.foldr (fun c g => Nat.gcd c.natAbs g) 0

/-- Modelled from the spec: `arg_t::normalize` (header line 81) has no
body under `src/`.  Spec §4.1: "removes complementary literal pairs
(reduces `k`), merges duplicate variables by summing coefficients,
divides by the gcd where sound, ceiling-rounds the bound for
≥-constraints …, and resolves to a definite truth value when the bound
becomes trivially satisfied/unsatisfiable from arity and coefficient
sum."  This models the ≥ direction (per §4.1 equalities are represented
internally as their two implied ≥-directions). -/
def normalize (a : ArgT) : Lbool × ArgT :=
  let m := mergeDups a.args
  let ek := elimComp m a.k
  if ek.2 ≤ 0 then (Lbool.ltrue, ⟨ek.1, ek.2⟩)
  else if (ek.1.map (fun p => p.2)).sum < ek.2 then (Lbool.lfalse, ⟨ek.1, ek.2⟩)
  else
    let g : Int := (listGcd (ek.1.map (fun p => p.2)) : Int)
    (Lbool.lundef,
     ⟨ek.1.map (fun p => (p.1, p.2 / g)), (ek.2 + g - 1) / g⟩)

/-- No two pairs carry the same variable — this excludes both duplicate
and complementary literal occurrences (`arg_t::well_formed`'s
"no duplicate variables"). -/
def noDupVar (xs : List (Literal × Int)) : Prop :=
  xs.Pairwise (fun p q => p.1.var ≠ q.1.var)

/-- Normalized-form invariant of `arg_t` (header line 51 comment
`m_k > 0, coeffs[i] > 0` and `well_formed`). -/
def wellFormed (a : ArgT) : Prop :=
  0 < a.k ∧ (∀ p ∈ a.args, 0 < p.2) ∧ noDupVar a.args

/-- No two pairs carry the same literal. -/
def noDupLit (xs : List (Literal × Int)) : Prop :=
  xs.Pairwise (fun p q => p.1 ≠ q.1)

/-- No pair's literal occurs negated elsewhere in the list. -/
def noComp (xs : List (Literal × Int)) : Prop :=
  ∀ p ∈ xs, ∀ q ∈ xs, q.1 ≠ p.1.neg

theorem Literal.neg_neg (l : Literal) : l.neg.neg = l := by
  cases l with
  | mk v s => simp [Literal.neg]

theorem Literal.eq_or_eq_neg_of_var {l1 l2 : Literal}
    (h : l1.var = l2.var) : l2 = l1 ∨ l2 = l1.neg := by
  cases l1 with
  | mk v1 s1 =>
    cases l2 with
    | mk v2 s2 =>
      simp only [Literal.var] at h
      subst h
      cases s1 <;> cases s2 <;> simp [Literal.neg]

theorem mergeDups_lits :
    ∀ xs : List (Literal × Int), ∀ q ∈ mergeDups xs, ∃ p ∈ xs, q.1 = p.1 := by
  intro xs
  induction xs using mergeDups.induct with
  | case1 => intro q hq; rw [mergeDups] at hq; cases hq
  | case2 l c rest ih =>
    intro q hq
    rw [mergeDups] at hq
    rcases List.mem_cons.mp hq with rfl | hq
    · exact ⟨(l, c), List.mem_cons_self _ _, rfl⟩
    · obtain ⟨p, hp, hq1⟩ := ih q hq
      exact ⟨p, List.mem_cons_of_mem _ (List.mem_of_mem_filter hp), hq1⟩

theorem mergeDups_noDupLit :
    ∀ xs : List (Literal × Int), noDupLit (mergeDups xs) := by
  intro xs
  induction xs using mergeDups.induct with
  | case1 => rw [noDupLit, mergeDups]; exact List.Pairwise.nil
  | case2 l c rest ih =>
    rw [mergeDups]
    refine List.Pairwise.cons ?_ ih
    intro q hq
    obtain ⟨p, hp, hq1⟩ := mergeDups_lits _ q hq
    have := List.of_mem_filter hp
    simp only [Bool.not_eq_true', decide_eq_false_iff_not] at this
    simp only
    rw [hq1]
    exact fun h => this h.symm

theorem mergeDups_id :
    ∀ xs : List (Literal × Int), noDupLit xs → mergeDups xs = xs := by
  intro xs
  induction xs using mergeDups.induct with
  | case1 => intro _; rw [mergeDups]
  | case2 l c rest ih =>
    intro hnd
    rw [mergeDups]
    have hhead := (List.pairwise_cons.mp hnd).1
    have h1 : rest.filter (fun q => decide (q.1 = l)) = [] := by
      rw [List.filter_eq_nil_iff]
      intro q hq
      simp only [decide_eq_true_eq]
      exact fun h => hhead q hq h.symm
    have h2 : rest.filter (fun q => !decide (q.1 = l)) = rest := by
      rw [List.filter_eq_self]
      intro q hq
      simp only [Bool.not_eq_true', decide_eq_false_iff_not]
      exact fun h => hhead q hq h.symm
    rw [h1, ih (by rw [h2]; exact List.Pairwise.of_cons hnd), h2]
    simp

theorem map_self {A : Type} (f : A → A) :
    ∀ xs : List A, (∀ x ∈ xs, f x = x) → xs.map f = xs := by
  intro xs
  induction xs with
  | nil => intro _; rfl
  | cons x rest ih =>
    intro h
    rw [List.map_cons, h x (List.mem_cons_self x rest),
      ih (fun y hy => h y (List.mem_cons_of_mem x hy))]

/-- In a list with pairwise-distinct literals, a member is determined by
its literal. -/
theorem unique_lit {xs : List (Literal × Int)} (hnd : noDupLit xs)
    {p q : Literal × Int} (hp : p ∈ xs) (hq : q ∈ xs) (h : p.1 = q.1) :
    p = q := by
  by_contra hne
  have hsym : Symmetric (fun p q : Literal × Int => p.1 ≠ q.1) :=
    fun a b hab => fun hh => hab hh.symm
  exact (List.Pairwise.forall hsym hnd hp hq hne) h

theorem elimComp_mem {xs : List (Literal × Int)} {k : Int}
    {q : Literal × Int} (hq : q ∈ (elimComp xs k).1) :
    ∃ p ∈ xs, q = (p.1, p.2 - compMin xs p) ∧ 0 < q.2 := by
  unfold elimComp at hq
  have hq2 := List.of_mem_filter hq
  rw [decide_eq_true_eq] at hq2
  have hqm := List.mem_of_mem_filter hq
  rw [List.mem_map] at hqm
  obtain ⟨p, hp, hpe⟩ := hqm
  exact ⟨p, hp, by rw [← hpe]; rfl, hq2⟩

theorem elimComp_noDupLit {xs : List (Literal × Int)} {k : Int}
    (hnd : noDupLit xs) : noDupLit (elimComp xs k).1 := by
  unfold elimComp noDupLit
  apply List.Pairwise.sublist (List.filter_sublist _)
  rw [List.pairwise_map]
  exact hnd

theorem elimComp_pos {xs : List (Literal × Int)} {k : Int} :
    ∀ p ∈ (elimComp xs k).1, 0 < p.2 := by
  intro p hp
  have := List.of_mem_filter hp
  rwa [decide_eq_true_eq] at this

theorem elimComp_noComp {xs : List (Literal × Int)} {k : Int}
    (hnd : noDupLit xs) : noComp (elimComp xs k).1 := by
  intro p' hp' q' hq' hcontra
  obtain ⟨p, hp, hpe, hppos⟩ := elimComp_mem hp'
  obtain ⟨q, hq, hqe, hqpos⟩ := elimComp_mem hq'
  have hq1 : q.1 = p.1.neg := by
    have h1 : q'.1 = q.1 := by rw [hqe]
    have h2 : p'.1 = p.1 := by rw [hpe]
    rw [h1, h2] at hcontra
    exact hcontra
  have hfp : xs.find? (fun r => decide (r.1 = p.1.neg)) = some q := by
    cases hfind : xs.find? (fun r => decide (r.1 = p.1.neg)) with
    | none =>
      have := List.find?_eq_none.mp hfind q hq
      rw [decide_eq_true_eq] at this
      exact absurd hq1 this
    | some r =>
      have hrmem := List.mem_of_find?_eq_some hfind
      have hrp := List.find?_some hfind
      rw [decide_eq_true_eq] at hrp
      have : r = q := unique_lit hnd hrmem hq (by rw [hrp, hq1])
      rw [this]
  have hfq : xs.find? (fun r => decide (r.1 = q.1.neg)) = some p := by
    have hq1n : q.1.neg = p.1 := by rw [hq1, Literal.neg_neg]
    cases hfind : xs.find? (fun r => decide (r.1 = q.1.neg)) with
    | none =>
      have := List.find?_eq_none.mp hfind p hp
      rw [decide_eq_true_eq] at this
      exact absurd hq1n.symm this
    | some r =>
      have hrmem := List.mem_of_find?_eq_some hfind
      have hrp := List.find?_some hfind
      rw [decide_eq_true_eq] at hrp
      have : r = p := unique_lit hnd hrmem hp (by rw [hrp, hq1n])
      rw [this]
  have hmp : compMin xs p = min p.2 q.2 := by
    unfold compMin
    rw [hfp]
  have hmq : compMin xs q = min q.2 p.2 := by
    unfold compMin
    rw [hfq]
  rw [hpe] at hppos
  rw [hqe] at hqpos
  simp only [hmp] at hppos
  simp only [hmq] at hqpos
  rcases le_total p.2 q.2 with hle | hle
  · rw [min_eq_left hle] at hppos
    omega
  · rw [min_eq_left hle] at hqpos
    omega

theorem elimComp_id {xs : List (Literal × Int)} {k : Int}
    (hnc : noComp xs) (hpos : ∀ p ∈ xs, 0 < p.2) :
    elimComp xs k = (xs, k) := by
  have hmin : ∀ p ∈ xs, compMin xs p = 0 := by
    intro p hp
    unfold compMin
    rw [List.find?_eq_none.mpr]
    intro q hq
    rw [decide_eq_true_eq]
    exact hnc p hp q hq
  unfold elimComp
  have hmap : xs.map (compReduce xs) = xs := by
    apply map_self
    intro p hp
    unfold compReduce
    rw [hmin p hp]
    simp
  rw [hmap]
  have hfil : xs.filter (fun p => decide (0 < p.2)) = xs := by
    rw [List.filter_eq_self]
    intro p hp
    exact decide_eq_true (hpos p hp)
  rw [hfil]
  have hsum : ((xs.filter (fun p => !p.1.sign)).map (compMin xs)).sum = 0 := by
    apply List.sum_eq_zero
    intro x hx
    rw [List.mem_map] at hx
    obtain ⟨p, hp, hpe⟩ := hx
    rw [← hpe]
    exact hmin p (List.mem_of_mem_filter hp)
  rw [hsum]
  simp

/-- Distinct variables follow from distinct literals plus absence of
complementary pairs. -/
theorem noDupVar_of {xs : List (Literal × Int)}
    (hnd : noDupLit xs) (hnc : noComp xs) : noDupVar xs := by
  unfold noDupVar
  rw [List.pairwise_iff_forall_sublist]
  intro p q hsub
  have hp : p ∈ xs := hsub.subset (List.mem_cons_self p [q])
  have hq : q ∈ xs := hsub.subset (List.mem_cons_of_mem p (List.mem_cons_self q []))
  intro hvar
  rcases Literal.eq_or_eq_neg_of_var hvar with heq | hneg
  · have hlitne : p.1 ≠ q.1 := by
      have := (List.pairwise_iff_forall_sublist.mp hnd) hsub
      exact this
    exact hlitne heq.symm
  · exact hnc p hp q hq hneg

theorem listGcd_dvd : ∀ (cs : List Int), ∀ c ∈ cs, (listGcd cs : Int) ∣ c := by
  intro cs
  induction cs with
  | nil => intro c hc; cases hc
  | cons c0 rest ih =>
    intro c hc
    rcases List.mem_cons.mp hc with rfl | hc
    · have h1 : listGcd (c :: rest) ∣ c.natAbs := Nat.gcd_dvd_left _ _
      exact Int.dvd_natAbs.mp (Int.natCast_dvd_natCast.mpr h1)
    · have h1 : listGcd (c0 :: rest) ∣ listGcd rest := Nat.gcd_dvd_right _ _
      exact dvd_trans (Int.natCast_dvd_natCast.mpr h1) (ih c hc)

theorem listGcd_pos {cs : List Int} {c : Int} (hc : c ∈ cs) (hne : c ≠ 0) :
    0 < listGcd cs := by
  induction cs with
  | nil => cases hc
  | cons c0 rest ih =>
    rcases List.mem_cons.mp hc with rfl | hmem
    · exact Nat.gcd_pos_of_pos_left _ (Int.natAbs_pos.mpr hne)
    · exact Nat.gcd_pos_of_pos_right _ (ih hmem)

theorem listGcd_map_mul (g : Nat) :
    ∀ cs : List Int, listGcd (cs.map (fun c => (g : Int) * c)) = g * listGcd cs := by
  intro cs
  induction cs with
  | nil => simp [listGcd]
  | cons c rest ih =>
    simp only [List.map_cons, listGcd, List.foldr_cons] at *
    rw [ih]
    rw [Int.natAbs_mul, Int.natAbs_ofNat]
    exact Nat.gcd_mul_left g c.natAbs _

theorem listGcd_div_eq_one {cs : List Int} (hg : 0 < listGcd cs) :
    listGcd (cs.map (fun c => c / (listGcd cs : Int))) = 1 := by
  have hdvd := listGcd_dvd cs
  have hmap : (cs.map (fun c => c / (listGcd cs : Int))).map
      (fun c => (listGcd cs : Int) * c) = cs := by
    rw [List.map_map]
    apply map_self
    intro c hc
    exact Int.mul_ediv_cancel' (hdvd c hc)
  have h1 : listGcd cs = listGcd cs * listGcd (cs.map (fun c => c / (listGcd cs : Int))) := by
    conv_lhs => rw [← hmap]
    exact listGcd_map_mul _ _
  have h2 : listGcd cs * 1 = listGcd cs * listGcd (cs.map (fun c => c / (listGcd cs : Int))) := by
    rw [Nat.mul_one]
    exact h1
  exact (Nat.eq_of_mul_eq_mul_left hg h2).symm

theorem div_pos_of_dvd {g c : Int} (hdvd : g ∣ c) (hc : 0 < c) (hg : 0 < g) :
    0 < c / g := by
  obtain ⟨d, rfl⟩ := hdvd
  rw [Int.mul_ediv_cancel_left d (ne_of_gt hg)]
  by_contra h
  push_neg at h
  nlinarith

theorem ceil_div_pos {k g : Int} (hk : 0 < k) (hg : 0 < g) :
    0 < (k + g - 1) / g := by
  have h1 : (1 : Int) ≤ (k + g - 1) / g := by
    rw [Int.le_ediv_iff_mul_le hg]
    omega
  omega

theorem ceil_div_le {k g s : Int} (hg : 0 < g) (hle : k ≤ g * s) :
    (k + g - 1) / g ≤ s := by
  have h1 : (k + g - 1) / g ≤ (g - 1 + g * s) / g :=
    Int.ediv_le_ediv hg (by omega)
  rw [Int.add_mul_ediv_left _ s (ne_of_gt hg)] at h1
  have hz : (g - 1) / g = 0 := Int.ediv_eq_zero_of_lt (by omega) (by omega)
  rw [hz] at h1
  omega

/-- Inversion of `normalize` in the undefined (constraint kept) case. -/
theorem normalize_undef_inv {a a2 : ArgT}
    (h : normalize a = (Lbool.lundef, a2)) :
    ∃ e k2, elimComp (mergeDups a.args) a.k = (e, k2)
      ∧ 0 < k2 ∧ k2 ≤ (e.map (fun p => p.2)).sum
      ∧ a2 = ⟨e.map (fun p =>
                (p.1, p.2 / (listGcd (e.map (fun p => p.2)) : Int))),
              (k2 + (listGcd (e.map (fun p => p.2)) : Int) - 1)
                / (listGcd (e.map (fun p => p.2)) : Int)⟩ := by
  simp only [normalize] at h
  refine ⟨(elimComp (mergeDups a.args) a.k).1,
    (elimComp (mergeDups a.args) a.k).2, rfl, ?_⟩
  by_cases h1 : (elimComp (mergeDups a.args) a.k).2 ≤ 0
  · rw [if_pos h1, Prod.mk.injEq] at h
    exact absurd h.1 (by decide)
  · rw [if_neg h1] at h
    by_cases h2 : ((elimComp (mergeDups a.args) a.k).1.map
        (fun p => p.2)).sum < (elimComp (mergeDups a.args) a.k).2
    · rw [if_pos h2, Prod.mk.injEq] at h
      exact absurd h.1 (by decide)
    · rw [if_neg h2, Prod.mk.injEq] at h
      exact ⟨by omega, by omega, h.2.symm⟩

/-- `normalize` is the identity on an argument list that is already in
fully-normalized form. -/
theorem normalize_fixpoint :
    ∀ (a : ArgT), noDupLit a.args → noComp a.args →
      (∀ p ∈ a.args, 0 < p.2) → 0 < a.k →
      a.k ≤ (a.args.map (fun p => p.2)).sum →
      listGcd (a.args.map (fun p => p.2)) = 1 →
      normalize a = (Lbool.lundef, a) := by
  intro a hnd hnc hpos hk hsum hgcd
  simp only [normalize]
  rw [mergeDups_id _ hnd, elimComp_id hnc hpos]
  rw [if_neg (show ¬ (a.args, a.k).2 ≤ 0 from by simp; omega)]
  rw [if_neg (show ¬ ((a.args, a.k).1.map (fun p => p.2)).sum < (a.args, a.k).2
    from by simp; omega)]
  simp only [hgcd]
  rw [Prod.mk.injEq]
  refine ⟨rfl, ?_⟩
  have hargs : a.args.map (fun p => (p.1, p.2 / ((1 : Nat) : Int))) = a.args := by
    apply map_self
    intro p _
    rw [Nat.cast_one, Int.ediv_one]
  have hkk : ((a.args, a.k).2 + ((1 : Nat) : Int) - 1) / ((1 : Nat) : Int)
      = a.k := by
    rw [Nat.cast_one, Int.ediv_one]
    omega
  rw [ArgT.mk.injEq]
  exact ⟨hargs, hkk⟩

/-- Claim C5: whenever `normalize` keeps a constraint (undefined truth
value), the result is well formed — positive bound, positive
coefficients, no duplicate or complementary literal pairs — and
applying `normalize` to it again leaves it unchanged (idempotence). -/
theorem claim5_normalize_idempotent :
    ∀ (a a2 : ArgT), normalize a = (Lbool.lundef, a2) →
      wellFormed a2 ∧ normalize a2 = (Lbool.lundef, a2) := by
  intro a a2 h
  obtain ⟨e, k2, hE, hk2, hsum, ha2⟩ := normalize_undef_inv h
  have hnd_e : noDupLit e := by
    have := @elimComp_noDupLit (mergeDups a.args) a.k (mergeDups_noDupLit a.args)
    rw [hE] at this
    exact this
  have hnc_e : noComp e := by
    have := @elimComp_noComp (mergeDups a.args) a.k (mergeDups_noDupLit a.args)
    rw [hE] at this
    exact this
  have hpos_e : ∀ p ∈ e, 0 < p.2 := by
    have := @elimComp_pos (mergeDups a.args) a.k
    rw [hE] at this
    exact this
  have hene : e ≠ [] := by
    intro he
    subst he
    simp at hsum
    omega
  obtain ⟨p0, e', he0⟩ := List.exists_cons_of_ne_nil hene
  have hc0 : p0.2 ∈ e.map (fun p => p.2) := by
    rw [he0]
    exact List.mem_cons_self _ _
  have hgcd : 0 < listGcd (e.map (fun p => p.2)) :=
    listGcd_pos hc0 (by
      have : 0 < p0.2 := hpos_e p0 (by rw [he0]; exact List.mem_cons_self _ _)
      omega)
  have hgpos : (0 : Int) < (listGcd (e.map (fun p => p.2)) : Int) := by
    exact_mod_cast hgcd
  have hdvd := listGcd_dvd (e.map (fun p => p.2))
  -- the two components of the result
  have hargs2 : a2.args = e.map (fun p =>
      (p.1, p.2 / (listGcd (e.map (fun p => p.2)) : Int))) := by rw [ha2]
  have hk2e : a2.k = (k2 + (listGcd (e.map (fun p => p.2)) : Int) - 1)
      / (listGcd (e.map (fun p => p.2)) : Int) := by rw [ha2]
  -- coefficient list of the result
  have hcs2 : a2.args.map (fun p => p.2)
      = (e.map (fun p => p.2)).map
          (fun c => c / (listGcd (e.map (fun p => p.2)) : Int)) := by
    rw [hargs2, List.map_map, List.map_map]
    rfl
  have hnd2 : noDupLit a2.args := by
    rw [hargs2]
    unfold noDupLit
    rw [List.pairwise_map]
    exact hnd_e
  have hnc2 : noComp a2.args := by
    rw [hargs2]
    intro p' hp' q' hq' hcon
    rw [List.mem_map] at hp' hq'
    obtain ⟨p, hp, hpe⟩ := hp'
    obtain ⟨q, hq, hqe⟩ := hq'
    apply hnc_e p hp q hq
    rw [← hpe, ← hqe] at hcon
    exact hcon
  have hpos2 : ∀ p ∈ a2.args, 0 < p.2 := by
    rw [hargs2]
    intro p' hp'
    rw [List.mem_map] at hp'
    obtain ⟨p, hp, hpe⟩ := hp'
    rw [← hpe]
    exact div_pos_of_dvd
      (hdvd p.2 (List.mem_map_of_mem _ hp)) (hpos_e p hp) hgpos
  have hkpos2 : 0 < a2.k := by
    rw [hk2e]
    exact ceil_div_pos hk2 hgpos
  -- divisibility bookkeeping for the sum bound
  have hmapback : ((e.map (fun p => p.2)).map
      (fun c => c / (listGcd (e.map (fun p => p.2)) : Int))).map
        (fun c => (listGcd (e.map (fun p => p.2)) : Int) * c)
      = e.map (fun p => p.2) := by
    rw [List.map_map]
    apply map_self
    intro c hc
    exact Int.mul_ediv_cancel' (hdvd c hc)
  have hsum_eq : (e.map (fun p => p.2)).sum
      = (listGcd (e.map (fun p => p.2)) : Int)
        * ((e.map (fun p => p.2)).map
            (fun c => c / (listGcd (e.map (fun p => p.2)) : Int))).sum := by
    conv_lhs => rw [← hmapback]
    rw [List.sum_map_mul_left, List.map_id']
  have hsum2 : a2.k ≤ (a2.args.map (fun p => p.2)).sum := by
    rw [hk2e, hcs2]
    exact ceil_div_le hgpos (by rw [← hsum_eq]; exact hsum)
  have hgcd2 : listGcd (a2.args.map (fun p => p.2)) = 1 := by
    rw [hcs2]
    exact listGcd_div_eq_one hgcd
  refine ⟨⟨hkpos2, hpos2, noDupVar_of hnd2 hnc2⟩, ?_⟩
  exact normalize_fixpoint a2 hnd2 hnc2 hpos2 hkpos2 hsum2 hgcd2

/-- Witness for C5: `2x + 3·¬x + 4y ≥ 5` normalizes to
`¬x + 4y ≥ 3` (complementary pair removed, bound reduced), which is
well formed and a fixpoint of `normalize`. -/
theorem claim5_witness :
    normalize ⟨[(Literal.pos 0, 2), (Literal.mk 0 true, 3),
                (Literal.pos 1, 4)], 5⟩
      = (Lbool.lundef, ⟨[(Literal.mk 0 true, 1), (Literal.pos 1, 4)], 3⟩)
    ∧ wellFormed ⟨[(Literal.mk 0 true, 1), (Literal.pos 1, 4)], 3⟩
    ∧ normalize ⟨[(Literal.mk 0 true, 1), (Literal.pos 1, 4)], 3⟩
      = (Lbool.lundef, ⟨[(Literal.mk 0 true, 1), (Literal.pos 1, 4)], 3⟩) :=
  have h0 : normalize ⟨[(Literal.pos 0, 2), (Literal.mk 0 true, 3),
      (Literal.pos 1, 4)], 5⟩
      = (Lbool.lundef, ⟨[(Literal.mk 0 true, 1), (Literal.pos 1, 4)], 3⟩) := by
    simp [normalize, mergeDups, elimComp, compMin, compReduce, listGcd,
      Literal.neg, Literal.pos]
  ⟨h0, (claim5_normalize_idempotent _ _ h0).1,
   (claim5_normalize_idempotent _ _ h0).2⟩

/-! ## Claim C7: sorting-network compilation -/

/-- One comparator gate of the sorting network: inputs are literals
(original constraint literals or earlier gate outputs as positive
literals), outputs are two fresh Boolean variables carrying
`hi = a ∨ b` and `lo = a ∧ b`. -/
structure Cmp where
  a : Literal
  b : Literal
  hi : Nat
  lo : Nat
deriving DecidableEq, Repr

/-- The six ordinary clauses defining one comparator:
`hi ↔ a ∨ b` and `lo ↔ a ∧ b`. -/
def cmpClauses (c : Cmp) : List (List Literal) :=
  [[c.a.neg, Literal.pos c.hi],
   [c.b.neg, Literal.pos c.hi],
   [Literal.mk c.hi true, c.a, c.b],
   [Literal.mk c.lo true, c.a],
   [Literal.mk c.lo true, c.b],
   [c.a.neg, c.b.neg, Literal.pos c.lo]]

/-- A clause is satisfied when one of its literals is true. -/
def clauseSat (τ : Nat → Bool) (cl : List Literal) : Prop :=
  ∃ l ∈ cl, litVal τ l = true

/-- Functional evaluation of one comparator: write the disjunction to
wire `hi` and the conjunction to wire `lo`. -/
def stepCmp (τ : Nat → Bool) (c : Cmp) : Nat → Bool :=
  fun w =>
    if w = c.hi then litVal τ c.a || litVal τ c.b
    else if w = c.lo then litVal τ c.a && litVal τ c.b
    else τ w

/-- Evaluate a comparator sequence in order. -/
def runCmps (τ : Nat → Bool) (cs : List Cmp) : Nat → Bool :=
  cs.foldl stepCmp τ

/-- Sequential wellformedness of a comparator list starting at fresh
wire `n` and ending at `n'`: each gate reads only wires below its own
two consecutively-numbered outputs. -/
def cmpsSeq : List Cmp → Nat → Nat → Prop
  | [], n, n' => n = n'
  | c :: cs, n, n' =>
    c.a.var < n ∧ c.b.var < n ∧ c.hi = n ∧ c.lo = n + 1 ∧ cmpsSeq cs (n + 2) n'

/-- Insertion of one literal into an already-sorted (descending) wire
list by a chain of comparators; returns the comparators, the output
wire literals and the next fresh variable. -/
def insertNet (x : Literal) : List Literal → Nat → List Cmp × List Literal × Nat
  | [], n => ([], [x], n)
  | y :: ys, n =>
    let c : Cmp := ⟨x, y, n, n + 1⟩
    let r := insertNet (Literal.pos (n + 1)) ys (n + 2)
    (c :: r.1, Literal.pos n :: r.2.1, r.2.2)

/-- The full insertion-sorting network over the input literals. -/
def sortNet : List Literal → Nat → List Cmp × List Literal × Nat
  | [], n => ([], [], n)
  | x :: xs, n =>
    let r1 := sortNet xs n
    let r2 := insertNet x r1.2.1 r1.2.2
    (r1.1 ++ r2.1, r2.2.1, r2.2.2)

/-- Pure counterpart of `insertNet` on Boolean values. -/
def insertVal (b : Bool) : List Bool → List Bool
  | [] => [b]
  | v :: vs => (b || v) :: insertVal (b && v) vs

/-- Pure counterpart of `sortNet`: sort a Boolean list descending. -/
def sortDesc : List Bool → List Bool
  | [] => []
  | b :: bs => insertVal b (sortDesc bs)

/-- `m` trues followed by `len − m` falses. -/
def thr (m len : Nat) : List Bool :=
  List.replicate m true ++ List.replicate (len - m) false

/-- Modelled from the spec: `theory_pb::compile_ineq` has no body under
`src/`.  Spec §4.6: "compilation emits a comparator network of fresh
auxiliary Boolean variables and ordinary clauses equivalent to the
constraint's truth table".  For the cardinality constraint "at least `k`
of `lits`" (all original variables below `n0`), emit the comparator
clauses of an insertion-sorting network plus the unit clause asserting
the `k`-th sorted output; `k = 0` compiles to no clauses and
`k > |lits|` to the empty clause. -/
def compileCard (lits : List Literal) (k : Nat) (n0 : Nat) :
    List (List Literal) :=
  let t := sortNet lits n0
  if k = 0 then []
  else if k ≤ t.2.1.length then
    (t.1.map cmpClauses).flatten ++ [[t.2.1.getD (k - 1) (Literal.pos 0)]]
  else [[]]

/-- Compilation bookkeeping of one constraint (`ineq::m_num_propagations`,
`m_compilation_threshold`, `m_compiled`, header lines 124–126). -/
structure IneqState where
  num_propagations : Nat
  compilation_threshold : Nat
  compiled : Lbool
deriving DecidableEq, Repr

/-- Modelled from the spec: §4.6 "marks it compiled". -/
def markCompiled (st : IneqState) : IneqState :=
  { st with compiled := Lbool.ltrue }

/-- Modelled from the spec: §4.6 "removes it from all watch lists". -/
def compileRemove (s : PbState) (id : Nat) : PbState :=
  { s with
    iwatch := fun v => (s.iwatch v).filter (fun j => decide (j ≠ id))
    cwatch := fun v => (s.cwatch v).filter (fun j => decide (j ≠ id)) }

theorem litVal_pos (τ : Nat → Bool) (w : Nat) :
    litVal τ (Literal.pos w) = τ w := rfl

theorem litVal_congr {τ σ : Nat → Bool} (l : Literal)
    (h : τ l.var = σ l.var) : litVal τ l = litVal σ l := by
  unfold litVal
  rw [h]

theorem runCmps_append (τ : Nat → Bool) (cs1 cs2 : List Cmp) :
    runCmps τ (cs1 ++ cs2) = runCmps (runCmps τ cs1) cs2 := by
  unfold runCmps
  rw [List.foldl_append]

theorem cmpsSeq_append :
    ∀ (cs1 : List Cmp) (n n1 : Nat), cmpsSeq cs1 n n1 →
      ∀ (cs2 : List Cmp) (n2 : Nat), cmpsSeq cs2 n1 n2 →
        cmpsSeq (cs1 ++ cs2) n n2 := by
  intro cs1
  induction cs1 with
  | nil =>
    intro n n1 h cs2 n2 h2
    cases h
    exact h2
  | cons c rest ih =>
    intro n n1 h cs2 n2 h2
    obtain ⟨ha, hb, hhi, hlo, hrest⟩ := h
    exact ⟨ha, hb, hhi, hlo, ih _ _ hrest cs2 n2 h2⟩

theorem cmpsSeq_le : ∀ (cs : List Cmp) (n n' : Nat), cmpsSeq cs n n' → n ≤ n' := by
  intro cs
  induction cs with
  | nil => intro n n' h; exact le_of_eq h
  | cons c rest ih =>
    intro n n' h
    have := ih (n + 2) n' h.2.2.2.2
    omega

theorem runCmps_stable :
    ∀ (cs : List Cmp) (n n' : Nat), cmpsSeq cs n n' →
      ∀ (τ : Nat → Bool) (w : Nat), w < n → runCmps τ cs w = τ w := by
  intro cs
  induction cs with
  | nil => intro n n' _ τ w _; rfl
  | cons c rest ih =>
    intro n n' h τ w hw
    obtain ⟨ha, hb, hhi, hlo, hrest⟩ := h
    show runCmps (stepCmp τ c) rest w = τ w
    rw [ih (n + 2) n' hrest (stepCmp τ c) w (by omega)]
    unfold stepCmp
    rw [if_neg (by omega), if_neg (by omega)]

theorem insertNet_spec :
    ∀ (ys : List Literal) (x : Literal) (n : Nat),
      x.var < n → (∀ y ∈ ys, y.var < n) →
      cmpsSeq (insertNet x ys n).1 n (insertNet x ys n).2.2
      ∧ (insertNet x ys n).2.1.length = ys.length + 1
      ∧ (∀ o ∈ (insertNet x ys n).2.1, o.var < (insertNet x ys n).2.2)
      ∧ ∀ τ : Nat → Bool,
          (insertNet x ys n).2.1.map (litVal (runCmps τ (insertNet x ys n).1))
            = insertVal (litVal τ x) (ys.map (litVal τ)) := by
  intro ys
  induction ys with
  | nil =>
    intro x n hx _
    refine ⟨rfl, rfl, ?_, fun τ => rfl⟩
    intro o ho
    rcases List.mem_cons.mp ho with rfl | ho
    · exact hx
    · cases ho
  | cons y ys ih =>
    intro x n hx hys
    have hyn : y.var < n := hys y (List.mem_cons_self _ _)
    have hysn : ∀ y' ∈ ys, y'.var < n + 2 := by
      intro y' h
      have := hys y' (List.mem_cons_of_mem _ h)
      omega
    have hxn : (Literal.pos (n + 1)).var < n + 2 := by
      show n + 1 < n + 2
      omega
    obtain ⟨hseq, hlen, hvars, hvals⟩ :=
      ih (Literal.pos (n + 1)) (n + 2) hxn hysn
    have hle2 : n + 2 ≤ (insertNet (Literal.pos (n + 1)) ys (n + 2)).2.2 :=
      cmpsSeq_le _ _ _ hseq
    refine ⟨?_, ?_, ?_, ?_⟩
    · show cmpsSeq (⟨x, y, n, n + 1⟩ :: (insertNet (Literal.pos (n + 1)) ys (n + 2)).1)
        n (insertNet (Literal.pos (n + 1)) ys (n + 2)).2.2
      exact ⟨hx, hyn, rfl, rfl, hseq⟩
    · show (Literal.pos n :: (insertNet (Literal.pos (n + 1)) ys (n + 2)).2.1).length
        = (y :: ys).length + 1
      rw [List.length_cons, hlen]
      rfl
    · intro o ho
      rcases List.mem_cons.mp ho with rfl | ho
      · show n < (insertNet (Literal.pos (n + 1)) ys (n + 2)).2.2
        omega
      · exact hvars o ho
    · intro τ
      show (Literal.pos n :: (insertNet (Literal.pos (n + 1)) ys (n + 2)).2.1).map
          (litVal (runCmps (stepCmp τ ⟨x, y, n, n + 1⟩)
            (insertNet (Literal.pos (n + 1)) ys (n + 2)).1))
        = insertVal (litVal τ x) ((y :: ys).map (litVal τ))
      set τ1 := stepCmp τ ⟨x, y, n, n + 1⟩ with hτ1
      rw [List.map_cons]
      have hhead : litVal (runCmps τ1 (insertNet (Literal.pos (n + 1)) ys (n + 2)).1)
          (Literal.pos n) = (litVal τ x || litVal τ y) := by
        rw [litVal_pos]
        rw [runCmps_stable _ _ _ hseq τ1 n (by omega)]
        rw [hτ1]
        unfold stepCmp
        rw [if_pos rfl]
      have htail : (insertNet (Literal.pos (n + 1)) ys (n + 2)).2.1.map
          (litVal (runCmps τ1 (insertNet (Literal.pos (n + 1)) ys (n + 2)).1))
          = insertVal (litVal τ x && litVal τ y) (ys.map (litVal τ)) := by
        rw [hvals τ1]
        have h1 : litVal τ1 (Literal.pos (n + 1)) = (litVal τ x && litVal τ y) := by
          rw [litVal_pos, hτ1]
          unfold stepCmp
          rw [if_neg (by dsimp only; omega), if_pos rfl]
        have h2 : ys.map (litVal τ1) = ys.map (litVal τ) := by
          apply List.map_congr_left
          intro y' hy'
          apply litVal_congr
          rw [hτ1]
          unfold stepCmp
          have := hys y' (List.mem_cons_of_mem _ hy')
          rw [if_neg (by dsimp only; omega), if_neg (by dsimp only; omega)]
        rw [h1, h2]
      rw [hhead, htail, List.map_cons]
      rfl

theorem sortNet_spec :
    ∀ (lits : List Literal) (n : Nat), (∀ l ∈ lits, l.var < n) →
      cmpsSeq (sortNet lits n).1 n (sortNet lits n).2.2
      ∧ (sortNet lits n).2.1.length = lits.length
      ∧ (∀ o ∈ (sortNet lits n).2.1, o.var < (sortNet lits n).2.2)
      ∧ ∀ τ : Nat → Bool,
          (sortNet lits n).2.1.map (litVal (runCmps τ (sortNet lits n).1))
            = sortDesc (lits.map (litVal τ)) := by
  intro lits
  induction lits with
  | nil =>
    intro n _
    exact ⟨rfl, rfl, fun o ho => absurd ho (List.not_mem_nil o), fun τ => rfl⟩
  | cons x xs ih =>
    intro n hvars
    have hxsn : ∀ l ∈ xs, l.var < n :=
      fun l hl => hvars l (List.mem_cons_of_mem _ hl)
    obtain ⟨hseq1, hlen1, hvars1, hvals1⟩ := ih n hxsn
    have hn1 : n ≤ (sortNet xs n).2.2 := cmpsSeq_le _ _ _ hseq1
    have hxv : x.var < (sortNet xs n).2.2 := by
      have := hvars x (List.mem_cons_self _ _)
      omega
    obtain ⟨hseq2, hlen2, hvars2, hvals2⟩ :=
      insertNet_spec (sortNet xs n).2.1 x (sortNet xs n).2.2 hxv hvars1
    refine ⟨?_, ?_, ?_, ?_⟩
    · show cmpsSeq ((sortNet xs n).1 ++ (insertNet x (sortNet xs n).2.1 (sortNet xs n).2.2).1)
        n (insertNet x (sortNet xs n).2.1 (sortNet xs n).2.2).2.2
      exact cmpsSeq_append _ _ _ hseq1 _ _ hseq2
    · show (insertNet x (sortNet xs n).2.1 (sortNet xs n).2.2).2.1.length
        = (x :: xs).length
      rw [hlen2, hlen1]
      rfl
    · intro o ho
      exact hvars2 o ho
    · intro τ
      show (insertNet x (sortNet xs n).2.1 (sortNet xs n).2.2).2.1.map
          (litVal (runCmps τ ((sortNet xs n).1
            ++ (insertNet x (sortNet xs n).2.1 (sortNet xs n).2.2).1)))
        = sortDesc ((x :: xs).map (litVal τ))
      rw [runCmps_append]
      set τ1 := runCmps τ (sortNet xs n).1 with hτ1
      rw [hvals2 τ1]
      have h1 : litVal τ1 x = litVal τ x := by
        apply litVal_congr
        rw [hτ1]
        exact runCmps_stable _ _ _ hseq1 τ x.var (hvars x (List.mem_cons_self _ _))
      have h2 : (sortNet xs n).2.1.map (litVal τ1) = sortDesc (xs.map (litVal τ)) :=
        hvals1 τ
      rw [h1, h2, List.map_cons]
      rfl

theorem litVal_negWire (ρ : Nat → Bool) (w : Nat) :
    litVal ρ (Literal.mk w true) = !(ρ w) := rfl

theorem cmpClauses_sat {ρ : Nat → Bool} {c : Cmp}
    (hhi : ρ c.hi = (litVal ρ c.a || litVal ρ c.b))
    (hlo : ρ c.lo = (litVal ρ c.a && litVal ρ c.b)) :
    ∀ cl ∈ cmpClauses c, clauseSat ρ cl := by
  intro cl hcl
  simp only [cmpClauses, List.mem_cons, List.not_mem_nil, or_false] at hcl
  rcases hcl with rfl | rfl | rfl | rfl | rfl | rfl <;>
    cases ha : litVal ρ c.a <;> cases hb : litVal ρ c.b <;>
      simp [clauseSat, litVal_neg, litVal_pos, litVal_negWire, hhi, hlo, ha, hb]

theorem netClauses_sat :
    ∀ (cs : List Cmp) (n n' : Nat), cmpsSeq cs n n' →
      ∀ (τ : Nat → Bool), ∀ cl ∈ (cs.map cmpClauses).flatten,
        clauseSat (runCmps τ cs) cl := by
  intro cs
  induction cs with
  | nil => intro n n' _ τ cl hcl; simp at hcl
  | cons c rest ih =>
    intro n n' h τ cl hcl
    obtain ⟨ha, hb, hhi, hlo, hrest⟩ := h
    rw [List.map_cons, List.flatten_cons, List.mem_append] at hcl
    have hrun : runCmps τ (c :: rest) = runCmps (stepCmp τ c) rest := rfl
    rcases hcl with hcl | hcl
    · rw [hrun]
      set ρ := runCmps (stepCmp τ c) rest with hρ
      have hsta : ∀ w, w < n + 2 → ρ w = stepCmp τ c w :=
        fun w hw => runCmps_stable rest (n + 2) n' hrest (stepCmp τ c) w hw
      have hva : litVal ρ c.a = litVal τ c.a := by
        apply litVal_congr
        rw [hsta c.a.var (by omega)]
        unfold stepCmp
        rw [if_neg (by omega), if_neg (by omega)]
      have hvb : litVal ρ c.b = litVal τ c.b := by
        apply litVal_congr
        rw [hsta c.b.var (by omega)]
        unfold stepCmp
        rw [if_neg (by omega), if_neg (by omega)]
      have hhi2 : ρ c.hi = (litVal ρ c.a || litVal ρ c.b) := by
        rw [hsta c.hi (by omega)]
        unfold stepCmp
        rw [if_pos rfl, hva, hvb]
      have hlo2 : ρ c.lo = (litVal ρ c.a && litVal ρ c.b) := by
        rw [hsta c.lo (by omega)]
        unfold stepCmp
        rw [if_neg (by omega), if_pos rfl, hva, hvb]
      exact cmpClauses_sat hhi2 hlo2 cl hcl
    · rw [hrun]
      exact ih (n + 2) n' hrest (stepCmp τ c) cl hcl

theorem cmpClauses_forces {τ : Nat → Bool} {c : Cmp}
    (h : ∀ cl ∈ cmpClauses c, clauseSat τ cl) :
    τ c.hi = (litVal τ c.a || litVal τ c.b)
    ∧ τ c.lo = (litVal τ c.a && litVal τ c.b) := by
  have h1 := h [c.a.neg, Literal.pos c.hi] (by simp [cmpClauses])
  have h2 := h [c.b.neg, Literal.pos c.hi] (by simp [cmpClauses])
  have h3 := h [Literal.mk c.hi true, c.a, c.b] (by simp [cmpClauses])
  have h4 := h [Literal.mk c.lo true, c.a] (by simp [cmpClauses])
  have h5 := h [Literal.mk c.lo true, c.b] (by simp [cmpClauses])
  have h6 := h [c.a.neg, c.b.neg, Literal.pos c.lo] (by simp [cmpClauses])
  have hi_of_a : litVal τ c.a = true → τ c.hi = true := by
    intro hval
    obtain ⟨l, hl, hv⟩ := h1
    rcases List.mem_cons.mp hl with rfl | hl
    · rw [litVal_neg, hval] at hv
      exact Bool.noConfusion hv
    · rcases List.mem_cons.mp hl with rfl | hl
      · rwa [litVal_pos] at hv
      · cases hl
  have hi_of_b : litVal τ c.b = true → τ c.hi = true := by
    intro hval
    obtain ⟨l, hl, hv⟩ := h2
    rcases List.mem_cons.mp hl with rfl | hl
    · rw [litVal_neg, hval] at hv
      exact Bool.noConfusion hv
    · rcases List.mem_cons.mp hl with rfl | hl
      · rwa [litVal_pos] at hv
      · cases hl
  have hi_of_ff : litVal τ c.a = false → litVal τ c.b = false →
      τ c.hi = false := by
    intro hva hvb
    obtain ⟨l, hl, hv⟩ := h3
    rcases List.mem_cons.mp hl with rfl | hl
    · rw [litVal_negWire] at hv
      cases hh : τ c.hi
      · rfl
      · rw [hh] at hv
        exact Bool.noConfusion hv
    · rcases List.mem_cons.mp hl with rfl | hl
      · rw [hva] at hv
        exact Bool.noConfusion hv
      · rcases List.mem_cons.mp hl with rfl | hl
        · rw [hvb] at hv
          exact Bool.noConfusion hv
        · cases hl
  have lo_of_tt : litVal τ c.a = true → litVal τ c.b = true →
      τ c.lo = true := by
    intro hva hvb
    obtain ⟨l, hl, hv⟩ := h6
    rcases List.mem_cons.mp hl with rfl | hl
    · rw [litVal_neg, hva] at hv
      exact Bool.noConfusion hv
    · rcases List.mem_cons.mp hl with rfl | hl
      · rw [litVal_neg, hvb] at hv
        exact Bool.noConfusion hv
      · rcases List.mem_cons.mp hl with rfl | hl
        · rwa [litVal_pos] at hv
        · cases hl
  have lo_of_a : litVal τ c.a = false → τ c.lo = false := by
    intro hva
    obtain ⟨l, hl, hv⟩ := h4
    rcases List.mem_cons.mp hl with rfl | hl
    · rw [litVal_negWire] at hv
      cases hh : τ c.lo
      · rfl
      · rw [hh] at hv
        exact Bool.noConfusion hv
    · rcases List.mem_cons.mp hl with rfl | hl
      · rw [hva] at hv
        exact Bool.noConfusion hv
      · cases hl
  have lo_of_b : litVal τ c.b = false → τ c.lo = false := by
    intro hvb
    obtain ⟨l, hl, hv⟩ := h5
    rcases List.mem_cons.mp hl with rfl | hl
    · rw [litVal_negWire] at hv
      cases hh : τ c.lo
      · rfl
      · rw [hh] at hv
        exact Bool.noConfusion hv
    · rcases List.mem_cons.mp hl with rfl | hl
      · rw [hvb] at hv
        exact Bool.noConfusion hv
      · cases hl
  cases ha : litVal τ c.a with
  | false =>
    cases hb : litVal τ c.b with
    | false => rw [hi_of_ff ha hb, lo_of_a ha]; exact ⟨rfl, rfl⟩
    | true => rw [hi_of_b hb, lo_of_a ha]; exact ⟨rfl, rfl⟩
  | true =>
    cases hb : litVal τ c.b with
    | false => rw [hi_of_a ha, lo_of_b hb]; exact ⟨rfl, rfl⟩
    | true => rw [hi_of_a ha, lo_of_tt ha hb]; exact ⟨rfl, rfl⟩

theorem stepCmp_fix {τ : Nat → Bool} {c : Cmp}
    (hhi : τ c.hi = (litVal τ c.a || litVal τ c.b))
    (hlo : τ c.lo = (litVal τ c.a && litVal τ c.b)) :
    stepCmp τ c = τ := by
  funext w
  unfold stepCmp
  by_cases h1 : w = c.hi
  · rw [if_pos h1, h1, hhi]
  · rw [if_neg h1]
    by_cases h2 : w = c.lo
    · rw [if_pos h2, h2, hlo]
    · rw [if_neg h2]

theorem runCmps_fix :
    ∀ (cs : List Cmp) (τ : Nat → Bool),
      (∀ cl ∈ (cs.map cmpClauses).flatten, clauseSat τ cl) →
      runCmps τ cs = τ := by
  intro cs
  induction cs with
  | nil => intro τ _; rfl
  | cons c rest ih =>
    intro τ h
    have hhead : ∀ cl ∈ cmpClauses c, clauseSat τ cl := by
      intro cl hcl
      apply h
      rw [List.map_cons, List.flatten_cons, List.mem_append]
      exact Or.inl hcl
    have htail : ∀ cl ∈ (rest.map cmpClauses).flatten, clauseSat τ cl := by
      intro cl hcl
      apply h
      rw [List.map_cons, List.flatten_cons, List.mem_append]
      exact Or.inr hcl
    obtain ⟨hhi, hlo⟩ := cmpClauses_forces hhead
    show runCmps (stepCmp τ c) rest = τ
    rw [stepCmp_fix hhi hlo]
    exact ih τ htail

theorem thr_zero_succ (len : Nat) : thr 0 (len + 1) = false :: thr 0 len := by
  simp [thr, List.replicate_succ]

theorem thr_succ_succ (m len : Nat) :
    thr (m + 1) (len + 1) = true :: thr m len := by
  simp [thr, List.replicate_succ, Nat.succ_sub_succ]

theorem insertVal_thr :
    ∀ (len m : Nat) (b : Bool), m ≤ len →
      insertVal b (thr m len) = thr (m + cond b 1 0) (len + 1) := by
  intro len
  induction len with
  | zero =>
    intro m b hm
    interval_cases m
    cases b
    · rfl
    · rfl
  | succ len ih =>
    intro m b hm
    cases m with
    | zero =>
      rw [thr_zero_succ]
      show (b || false) :: insertVal (b && false) (thr 0 len)
        = thr (0 + cond b 1 0) (len + 1 + 1)
      rw [Bool.or_false, Bool.and_false]
      rw [ih 0 false (Nat.zero_le len)]
      cases b
      · show false :: thr 0 (len + 1) = thr 0 (len + 1 + 1)
        rw [thr_zero_succ (len + 1)]
      · show true :: thr 0 (len + 1) = thr (0 + 1) (len + 2)
        rw [thr_succ_succ]
    | succ m =>
      rw [thr_succ_succ]
      show (b || true) :: insertVal (b && true) (thr m len)
        = thr (m + 1 + cond b 1 0) (len + 1 + 1)
      rw [Bool.or_true, Bool.and_true]
      rw [ih m b (Nat.le_of_succ_le_succ hm)]
      have : m + 1 + cond b 1 0 = (m + cond b 1 0) + 1 := by omega
      rw [this, thr_succ_succ]

theorem sortDesc_thr :
    ∀ vs : List Bool, sortDesc vs = thr (vs.countP (fun b => b)) vs.length := by
  intro vs
  induction vs with
  | nil => rfl
  | cons b vs ih =>
    show insertVal b (sortDesc vs) = _
    rw [ih]
    rw [insertVal_thr vs.length (vs.countP (fun b => b)) b
      (List.countP_le_length _)]
    rw [List.countP_cons, List.length_cons]
    congr 1
    cases b
    · simp
    · simp

theorem thr_getD :
    ∀ (len m i : Nat), i < len →
      (thr m len).getD i false = decide (i < m) := by
  intro len
  induction len with
  | zero => intro m i hi; omega
  | succ len ih =>
    intro m i hi
    cases m with
    | zero =>
      rw [thr_zero_succ]
      cases i with
      | zero => rfl
      | succ i =>
        rw [List.getD_cons_succ]
        rw [ih 0 i (by omega)]
        simp
    | succ m =>
      rw [thr_succ_succ]
      cases i with
      | zero =>
        rw [List.getD_cons_zero]
        simp
      | succ i =>
        rw [List.getD_cons_succ]
        rw [ih m i (by omega)]
        simp [Nat.succ_lt_succ_iff]

/-- Value of the `k`-th sorted output wire after running the network:
true exactly when at least `k` of the input literals are true. -/
theorem sorted_out_val (lits : List Literal) (n0 : Nat)
    (hvars : ∀ l ∈ lits, l.var < n0) (τ : Nat → Bool) (k : Nat)
    (hk1 : 1 ≤ k) (hkle : k ≤ (sortNet lits n0).2.1.length) :
    litVal (runCmps τ (sortNet lits n0).1)
        ((sortNet lits n0).2.1.getD (k - 1) (Literal.pos 0))
      = decide (k - 1 < lits.countP (fun l => litVal τ l)) := by
  obtain ⟨hseq, hlen, houts, hvals⟩ := sortNet_spec lits n0 hvars
  have hik : k - 1 < (sortNet lits n0).2.1.length := by omega
  have h1 : ((sortNet lits n0).2.1.map
        (litVal (runCmps τ (sortNet lits n0).1))).getD (k - 1) false
      = litVal (runCmps τ (sortNet lits n0).1)
          ((sortNet lits n0).2.1.getD (k - 1) (Literal.pos 0)) := by
    rw [List.getD_eq_getElem _ _ (by rw [List.length_map]; omega),
        List.getD_eq_getElem _ _ hik, List.getElem_map]
  rw [← h1, hvals τ, sortDesc_thr]
  have h3 : (lits.map (litVal τ)).countP (fun b => b)
      = lits.countP (fun l => litVal τ l) := by
    rw [List.countP_map]
    rfl
  rw [h3, List.length_map]
  exact thr_getD lits.length _ (k - 1) (by omega)

/-- Claim C7: the clause set emitted by sorting-network compilation is
logically equivalent to the original cardinality constraint for every
total assignment to the constraint's original literals (an assignment
satisfies the constraint iff it extends to the auxiliary comparator
variables so that every emitted clause holds); the compiled constraint
is marked compiled and is removed from all watch lists. -/
theorem claim7_compile_equivalence :
    (∀ (lits : List Literal) (k n0 : Nat), (∀ l ∈ lits, l.var < n0) →
      ∀ σ : Nat → Bool,
        ((∃ τ : Nat → Bool, (∀ w, w < n0 → τ w = σ w)
            ∧ ∀ cl ∈ compileCard lits k n0, clauseSat τ cl)
          ↔ k ≤ lits.countP (fun l => litVal σ l)))
    ∧ (∀ st : IneqState, (markCompiled st).compiled = Lbool.ltrue)
    ∧ (∀ (s : PbState) (id v : Nat),
        id ∉ (compileRemove s id).iwatch v
        ∧ id ∉ (compileRemove s id).cwatch v) := by
  refine ⟨?_, fun st => rfl, ?_⟩
  · intro lits k n0 hvars σ
    obtain ⟨hseq, hlen, houts, hvals⟩ := sortNet_spec lits n0 hvars
    by_cases hk0 : k = 0
    · subst hk0
      constructor
      · intro _
        exact Nat.zero_le _
      · intro _
        refine ⟨σ, fun w _ => rfl, ?_⟩
        intro cl hcl
        rw [compileCard, if_pos rfl] at hcl
        cases hcl
    · by_cases hkle : k ≤ (sortNet lits n0).2.1.length
      · have hmemcc : ∀ cl, cl ∈ compileCard lits k n0 ↔
            (cl ∈ ((sortNet lits n0).1.map cmpClauses).flatten
              ∨ cl = [(sortNet lits n0).2.1.getD (k - 1) (Literal.pos 0)]) := by
          intro cl
          rw [compileCard]
          simp only [if_neg hk0, if_pos hkle, List.mem_append,
            List.mem_singleton]
        constructor
        · rintro ⟨τ, hagree, hsat⟩
          have hfix : runCmps τ (sortNet lits n0).1 = τ :=
            runCmps_fix _ τ (fun cl hcl => hsat cl ((hmemcc cl).mpr (Or.inl hcl)))
          have hunit := hsat _ ((hmemcc _).mpr (Or.inr rfl))
          obtain ⟨l, hl, hlv⟩ := hunit
          rw [List.mem_singleton] at hl
          subst hl
          have hval := sorted_out_val lits n0 hvars τ k (by omega) hkle
          rw [hfix] at hval
          rw [hval] at hlv
          have hcnt : k - 1 < lits.countP (fun l => litVal τ l) :=
            of_decide_eq_true hlv
          have hsame : lits.countP (fun l => litVal τ l)
              = lits.countP (fun l => litVal σ l) := by
            apply List.countP_congr
            intro l hlm
            rw [litVal_congr l (hagree l.var (hvars l hlm))]
          omega
        · intro hcount
          refine ⟨runCmps σ (sortNet lits n0).1, ?_, ?_⟩
          · intro w hw
            exact runCmps_stable _ _ _ hseq σ w hw
          · intro cl hcl
            rcases (hmemcc cl).mp hcl with hcl | hcl
            · exact netClauses_sat _ _ _ hseq σ cl hcl
            · subst hcl
              refine ⟨_, List.mem_singleton_self _, ?_⟩
              rw [sorted_out_val lits n0 hvars σ k (by omega) hkle]
              exact decide_eq_true (by omega)
      · constructor
        · rintro ⟨τ, hagree, hsat⟩
          have hbad := hsat [] (by
            rw [compileCard, if_neg hk0, if_neg hkle]
            exact List.mem_singleton_self _)
          obtain ⟨l, hl, _⟩ := hbad
          cases hl
        · intro hcount
          exfalso
          have hle : lits.countP (fun l => litVal σ l) ≤ lits.length :=
            List.countP_le_length _
          rw [hlen] at hkle
          omega
  · intro s id v
    constructor
    · intro hm
      have := List.of_mem_filter hm
      rw [decide_eq_true_eq] at this
      exact this rfl
    · intro hm
      have := List.of_mem_filter hm
      rw [decide_eq_true_eq] at this
      exact this rfl

/-- Model used by the compilation witness: `a` false, `b`, `c` true. -/
def demoSigma : Nat → Bool := fun v => decide (1 ≤ v)

/-- Witness for C7: for "at least 2 of {a,b,c}" over variables 0–2 and
the model `a=false, b=true, c=true`, the emitted clause set is
satisfiable by an extension exactly because the model meets the
bound. -/
theorem claim7_witness :
    (∃ τ : Nat → Bool, (∀ w, w < 3 → τ w = demoSigma w)
        ∧ ∀ cl ∈ compileCard [Literal.pos 0, Literal.pos 1, Literal.pos 2] 2 3,
            clauseSat τ cl)
      ↔ 2 ≤ ([Literal.pos 0, Literal.pos 1, Literal.pos 2].countP
              (fun l => litVal demoSigma l)) :=
  claim7_compile_equivalence.1 [Literal.pos 0, Literal.pos 1, Literal.pos 2]
    2 3 (by decide) demoSigma

end TheoryPb
